import Mathlib

/-!
Verification of the task-planner core of the repository
(`agents/planner/{models,solver,solver_matcher,history_tracker,availability_checker,solver_registry}.py`)
against its natural-language specification.

The Python code is shallowly embedded: dataclasses become structures,
Python `int` becomes `Int` (or `Nat` for counts), Python `float`
arithmetic is carried out exactly in `Rat`, dictionaries become
association folds, and `heapq` is modelled as a list whose pop picks the
least element under the pushed key — which is sound because the pushed
keys `(-priority, task_id)` never change after push and `heapq.heappop`
returns the minimum of the multiset of entries.
-/

set_option autoImplicit false

namespace Planner

/-- `Priority` enum of `models.py` (values 5..1). -/
inductive Priority where
  | SHOW_STOPPER
  | CRITICAL
  | MAJOR
  | NORMAL
  | MINOR
deriving DecidableEq

/-- Numeric `.value` of the `Priority` enum. -/
def Priority.value : Priority → Int
  | .SHOW_STOPPER => 5
  | .CRITICAL => 4
  | .MAJOR => 3
  | .NORMAL => 2
  | .MINOR => 1

/-- `.name` of the `Priority` enum. -/
def Priority.pname : Priority → String
  | .SHOW_STOPPER => "SHOW_STOPPER"
  | .CRITICAL => "CRITICAL"
  | .MAJOR => "MAJOR"
  | .NORMAL => "NORMAL"
  | .MINOR => "MINOR"

/-- `Task` dataclass of `models.py`. -/
structure Task where
  id : String
  summary : String
  goalId : String
  priority : Priority
  estimateHours : Int
  dependsOn : List String
  blocks : List String
  affectedFiles : List String
  dueDate : Option String
deriving DecidableEq

/-- `Goal` dataclass of `models.py`. -/
structure Goal where
  id : String
  name : String
  priority : Int
  tasks : List String
deriving DecidableEq

/-- `PlanRequest` dataclass of `models.py`.  The objective-weight map is
not embedded: no analysed operation reads it. -/
structure PlanRequest where
  tasks : List Task
  goals : List Goal
  availableHours : Int
  maxParallel : Nat
deriving DecidableEq

/-- The task ids of a request, in source (insertion) order. -/
def taskIds (r : PlanRequest) : List String :=
  r.tasks.map (·.id)

/-- `self.tasks = {t.id: t for t in request.tasks}` — dict build, a later
duplicate id overwrites an earlier one. -/
def taskById (r : PlanRequest) (i : String) : Option Task :=
  r.tasks.foldl (fun acc t => if t.id = i then some t else acc) none

/-- The dependency set `graph[t.id]` built by `build_dependency_graph`:
the declared prerequisites whose ids are known, as a set (deduplicated). -/
def depsOf (r : PlanRequest) (i : String) : List String :=
  match taskById r i with
  | some t => (t.dependsOn.filter (fun d => decide (d ∈ taskIds r))).dedup
  | none => []

/-- Priority value of a task id (task ids fed to the heap always resolve). -/
def priorityOf (r : PlanRequest) (i : String) : Int :=
  match taskById r i with
  | some t => t.priority.value
  | none => 0

/-- The heap key pushed by `topological_sort`: `(-task.priority.value, task_id)`. -/
def taskKey (r : PlanRequest) (i : String) : Int × String :=
  (-(priorityOf r i), i)

/-- Lexicographic code-point comparison of char lists: Python `<` on str. -/
def charListLt : List Char → List Char → Bool
  | [], [] => false
  | [], _ :: _ => true
  | _ :: _, [] => false
  | a :: as, b :: bs =>
    if a.toNat < b.toNat then true
    else if b.toNat < a.toNat then false
    else charListLt as bs

/-- Python `<` on strings (code-point lexicographic). -/
def strLt (a b : String) : Bool :=
  charListLt a.data b.data

/-- Strict lexicographic order on heap keys, matching Python tuple `<`. -/
def keyLtB (a b : Int × String) : Bool :=
  if a.1 < b.1 then true
  else if a.1 = b.1 then strLt a.2 b.2
  else false

/-- Minimum-key element of a list of ids; models `heapq.heappop` on the
multiset of pushed entries.  Keys are injective in the id, so the
minimum is unique whenever the ids are distinct. -/
def pickMin (r : PlanRequest) : List String → Option String
  | [] => none
  | i :: rest =>
    some ((pickMin r rest).elim i
      (fun j => if keyLtB (taskKey r j) (taskKey r i) then j else i))

/-- Pointwise decrement of an in-degree table, `in_degree[o] -= 1`. -/
def decAt (d : String → Int) (i : String) : String → Int :=
  fun j => if j = i then d j - 1 else d j

/-- Body of `for other_id, deps in graph.items(): if task_id in deps: ...`
for one dependant `o` after popping `i`: decrement it and push it when
its degree reaches zero.  The state is (heap, in-degree table). -/
def relaxStep (r : PlanRequest) (i : String)
    (st : List String × (String → Int)) (o : String) : List String × (String → Int) :=
  if i ∈ depsOf r o then
    let d2 := decAt st.2 o
    if d2 o = 0 then (st.1 ++ [o], d2) else (st.1, d2)
  else st

/-- The whole dependant scan after popping `i`. -/
def kahnRelax (r : PlanRequest) (i : String)
    (st : List String × (String → Int)) : List String × (String → Int) :=
  (taskIds r).foldl (relaxStep r i) st

/-- The `while queue:` loop of `topological_sort`.  Each id is pushed at
most once, so the loop pops at most `|tasks|` times; the fuel is that
bound.  The result list is accumulated reversed and reversed at exit. -/
def kahnLoop (r : PlanRequest) : Nat → List String → (String → Int) → List String → List String
  | 0, _, _, res => res.reverse
  | fuel + 1, heap, deg, res =>
    (pickMin r heap).elim res.reverse (fun i =>
      let st := kahnRelax r i (heap.erase i, deg)
      kahnLoop r fuel st.1 st.2 (i :: res))

/-- `TaskPlannerSolver.topological_sort` of `solver.py`. -/
def topological_sort (r : PlanRequest) : List String :=
  let deg : String → Int := fun i => ((depsOf r i).length : Int)
  let heap0 := (taskIds r).filter (fun i => decide ((depsOf r i).length = 0))
  kahnLoop r (taskIds r).length heap0 deg []

/-- The currently unblocked, not yet emitted ids (`emitted` is the list of
already-emitted ids, most recent first). -/
def readyList (r : PlanRequest) (emitted : List String) : List String :=
  (taskIds r).filter
    (fun i => decide (i ∉ emitted ∧ ∀ d ∈ depsOf r i, d ∈ emitted))

/-- Selection-style description of the Kahn loop: repeatedly emit the
ready id of maximal priority, ties broken by least id. -/
def specLoop (r : PlanRequest) : Nat → List String → List String
  | 0, emitted => emitted.reverse
  | fuel + 1, emitted =>
    (pickMin r (readyList r emitted)).elim emitted.reverse
      (fun i => specLoop r fuel (i :: emitted))

/-- Specification form of the topological sort: among currently-unblocked
nodes emit the one with the highest priority value, ties broken by the
lexicographically least task id. -/
def topoSelectSpec (r : PlanRequest) : List String :=
  specLoop r (taskIds r).length []

/-- Claim-side tie break: among the ready ids pick the first (in source
insertion order) id of maximal priority value.  This follows the words of
the specification, not the code. -/
def pickFirstMax (r : PlanRequest) : List String → Option String
  | [] => none
  | i :: rest => some ((pickFirstMax r rest).elim i
      (fun j => if priorityOf r i < priorityOf r j then j else i))

/-- Claim-side loop: like `specLoop` but with the insertion-order tie
break of the specification. -/
def specLoopIns (r : PlanRequest) : Nat → List String → List String
  | 0, emitted => emitted.reverse
  | fuel + 1, emitted =>
    (pickFirstMax r (readyList r emitted)).elim emitted.reverse
      (fun i => specLoopIns r fuel (i :: emitted))

/-- Claim-side topological sort with insertion-order tie break, following
the words of the specification. -/
def topoInsertSpec (r : PlanRequest) : List String :=
  specLoopIns r (taskIds r).length []

/-- `emitted` (most recent first) respects dependencies: every emitted
id has all its prerequisites emitted strictly earlier. -/
def ChainOk (r : PlanRequest) : List String → Prop
  | [] => True
  | i :: rest => (∀ d ∈ depsOf r i, d ∈ rest) ∧ ChainOk r rest

/-- Dependency edge: `edge r i d` holds when `d` is a (known) prerequisite
of task `i`. -/
def edge (r : PlanRequest) (i d : String) : Prop :=
  d ∈ depsOf r i

/-! ## Batch selector (`select_parallel_batch`) -/

/-- Affected files of a task id.  The source indexes `self.tasks[task_id]`
directly; in the planning call every id of the ordered list is a known
task id, so the `none` branch is inert there. -/
def filesOf (r : PlanRequest) (i : String) : List String :=
  match taskById r i with
  | some t => t.affectedFiles
  | none => []

/-- Loop body of `select_parallel_batch`: stop once the batch has reached
`maxSize`; otherwise skip ids whose files meet the claimed set and admit
the rest, claiming their files. -/
def batchLoop (r : PlanRequest) (maxSize : Nat) :
    List String → List String → List String → List String
  | [], batch, _ => batch
  | i :: rest, batch, used =>
    if maxSize ≤ batch.length then batch
    else if (filesOf r i).any (fun f => decide (f ∈ used)) then
      batchLoop r maxSize rest batch used
    else
      batchLoop r maxSize rest (batch ++ [i]) (used ++ filesOf r i)

/-- `TaskPlannerSolver.select_parallel_batch` of `solver.py`.  (The
conflict index the source computes on entry is never read by the loop.) -/
def select_parallel_batch (r : PlanRequest) (ordered : List String) (maxSize : Nat) :
    List String :=
  batchLoop r maxSize ordered [] []

/-- The immediate batch produced by `TaskPlannerSolver.solve`. -/
def immediate_batch (r : PlanRequest) : List String :=
  select_parallel_batch r (topological_sort r) r.maxParallel

/-! ## Value impact (`calculate_value_impact`) -/

/-- The reverse-dependency set `blocks[i]` (who gets unblocked by `i`):
the known tasks listing `i` among their prerequisites; empty for an
unknown id, since `blocks` has only known ids as keys. -/
def blocksOf (r : PlanRequest) (i : String) : List String :=
  if i ∈ taskIds r then
    (r.tasks.filter (fun t => decide (i ∈ t.dependsOn))).map (·.id)
  else []

/-- One closure step of the DFS reachable set. -/
def closureStep (r : PlanRequest) (s : Finset String) : Finset String :=
  s ∪ s.biUnion (fun i => (blocksOf r i).toFinset)

/-- The `transitive` set of `calculate_value_impact`: everything reachable
from `i` through `blocks` in one or more steps (the stack-based DFS of
the source computes exactly this reachable set; `|tasks|` closure rounds
reach the fixpoint because the set only ever holds task ids). -/
def transitiveBlockers (r : PlanRequest) (i : String) : Finset String :=
  (closureStep r)^[r.tasks.length] (blocksOf r i).toFinset

/-- `blocked_hours`: total estimate over the transitive set (unknown ids
are dropped by the `if t in self.tasks` guard, here contributing 0). -/
def blockedHours (r : PlanRequest) (trans : Finset String) : Int :=
  trans.sum (fun i =>
    match taskById r i with
    | some t => t.estimateHours
    | none => 0)

/-- One iteration of the `blocked_goals` loop of
`calculate_value_impact`, with its two insertion conditions kept
separate exactly as in the source. -/
def bgStep (tid : String) (trans acc : Finset String) (g : Goal) : Finset String :=
  let acc1 :=
    if tid ∈ g.tasks ∧ ∃ x ∈ g.tasks, x ∈ trans then insert g.id acc else acc
  if ∃ x ∈ g.tasks, x ∈ trans then insert g.id acc1 else acc1

/-- The `blocked_goals` set of `calculate_value_impact`. -/
def blocked_goals (r : PlanRequest) (tid : String) (trans : Finset String) : Finset String :=
  r.goals.foldl (bgStep tid trans) ∅

/-- Sum of all estimates of the request (`max_hours` of the source). -/
def totalHours (r : PlanRequest) : Int :=
  (r.tasks.map (·.estimateHours)).sum

/-- The unrounded composite value score of `calculate_value_impact`,
carried out exactly in `Rat` (the source uses floats). -/
def value_score_raw (r : PlanRequest) (tid : String) : ℚ :=
  (if 0 < (r.tasks.length : ℚ) then
      40 * (((transitiveBlockers r tid).card : ℚ) / (r.tasks.length : ℚ))
    else 0)
  + (if 0 < ((totalHours r : Int) : ℚ) then
      40 * (((blockedHours r (transitiveBlockers r tid) : Int) : ℚ) / ((totalHours r : Int) : ℚ))
    else 0)
  + (if 0 < (r.goals.length : ℚ) then
      20 * (((blocked_goals r tid (transitiveBlockers r tid)).card : ℚ) / (r.goals.length : ℚ))
    else 0)

/-- Rounding to one decimal place (`round(score, 1)`).  `round` here is
round-half-up while CPython rounds floats half-to-even; the two agree
except on exact ties, and every bound proved below holds for both. -/
def roundTo1 (q : ℚ) : ℚ :=
  ((round (10 * q) : Int) : ℚ) / 10

/-- The `value_score` field of `calculate_value_impact`. -/
def value_score (r : PlanRequest) (tid : String) : ℚ :=
  roundTo1 (value_score_raw r tid)

/-! ## Pareto filter (`PlanPath.dominates`, `_compute_pareto_frontier`) -/

/-- `PlanPath` dataclass of `models.py` (scores in exact `Rat`;
`goalsPart` is the goals-with-some-tasks-done field). -/
structure PlanPath where
  taskSequence : List String
  totalHoursP : Int
  goalsCompleted : List String
  goalsPart : List String
  speedScore : ℚ
  coverageScore : ℚ
  urgencyScore : ℚ
deriving DecidableEq

/-- `PlanPath.dominates`: return false on the first dimension where
`self` is worse; otherwise report whether `self` is strictly better
somewhere. -/
def PlanPath.dominates (a b : PlanPath) : Bool :=
  if a.speedScore < b.speedScore then false
  else if a.coverageScore < b.coverageScore then false
  else if a.urgencyScore < b.urgencyScore then false
  else
    decide (b.speedScore < a.speedScore) || decide (b.coverageScore < a.coverageScore)
      || decide (b.urgencyScore < a.urgencyScore)

/-- The `frontier` list of `_compute_pareto_frontier`: candidates not
dominated by any distinct path (dataclass `!=` is field equality). -/
def nonDominated (paths : List PlanPath) : List PlanPath :=
  paths.filter
    (fun c => !(paths.any (fun o => decide (o ≠ c) && PlanPath.dominates o c)))

/-- `TaskPlannerSolver._compute_pareto_frontier`: keep the non-dominated
candidates; fall back to the first candidate when that list is empty. -/
def compute_pareto_frontier (paths : List PlanPath) : List PlanPath :=
  if paths.isEmpty then []
  else
    if (nonDominated paths).isEmpty then paths.take 1 else nonDominated paths

/-! ## History tracker (`history_tracker.py`) -/

/-- `TaskCompletion` dataclass (hours in exact `Rat`). -/
structure TaskCompletion where
  taskId : String
  estimatedHours : ℚ
  actualHours : ℚ
  solver : String
  completedAt : String
  success : Bool
  notes : Option String
deriving DecidableEq

/-- `CalibrationStats` (the standard-deviation field is omitted: it is a
square root, read by no analysed operation). -/
structure CalibrationStats where
  sampleSize : Nat
  avgRatio : ℚ
  bySolver : List (String × ℚ)
deriving DecidableEq

/-- The ratio list of `calculate_calibration`: `actual / estimated` over
completions with positive estimate, in order. -/
def ratios (cs : List TaskCompletion) : List ℚ :=
  (cs.filter (fun c => decide (0 < c.estimatedHours))).map
    (fun c => c.actualHours / c.estimatedHours)

/-- `by_solver[solver].append(ratio)` with key creation on first use. -/
def addRatio (acc : List (String × List ℚ)) (s : String) (x : ℚ) :
    List (String × List ℚ) :=
  if acc.any (fun p => p.1 == s) then
    acc.map (fun p => if p.1 == s then (p.1, p.2 ++ [x]) else p)
  else acc ++ [(s, [x])]

/-- The `by_solver` dict of `calculate_calibration`, keys in first-seen
order. -/
def bySolverLists (cs : List TaskCompletion) : List (String × List ℚ) :=
  cs.foldl
    (fun acc c =>
      if 0 < c.estimatedHours then addRatio acc c.solver (c.actualHours / c.estimatedHours)
      else acc)
    []

/-- `calculate_calibration` of `history_tracker.py`. -/
def calculate_calibration (cs : List TaskCompletion) : CalibrationStats :=
  if cs.isEmpty then ⟨0, 1, []⟩
  else
    let rs := ratios cs
    let avg := if rs.isEmpty then 1 else rs.sum / (rs.length : ℚ)
    let solverAvgs := (bySolverLists cs).map (fun p => (p.1, p.2.sum / (p.2.length : ℚ)))
    ⟨cs.length, avg, solverAvgs⟩

/-- Dict lookup `stats.by_solver[solver]`. -/
def lookupRatio (l : List (String × ℚ)) (s : String) : Option ℚ :=
  (l.find? (fun p => p.1 == s)).map (·.2)

/-- `calibrate_estimate` of `history_tracker.py`, over an explicit history
snapshot.  `solver and solver in stats.by_solver` makes the empty string
falsy, hence the separate branch. -/
def calibrate_estimate (originalHours : ℚ) (solver : Option String)
    (cs : List TaskCompletion) : ℚ :=
  let stats := calculate_calibration cs
  if stats.sampleSize < 3 then originalHours
  else
    let knownRatio :=
      solver.bind (fun s => if s = "" then none else lookupRatio stats.bySolver s)
    originalHours * knownRatio.getD stats.avgRatio

/-- Clamp of a ratio to [0.1, 10]. -/
def clampRatio (x : ℚ) : ℚ :=
  max (1/10) (min 10 x)

/-- Modelled from the spec: the calibration the claim describes, in which
every ratio is clamped to [0.1, 10] before use; kept for comparison with
`calibrate_estimate` above, which the source implements without any
clamping. -/
def claimCalibrate (originalHours : ℚ) (solver : Option String)
    (cs : List TaskCompletion) : ℚ :=
  let stats := calculate_calibration cs
  if stats.sampleSize < 3 then originalHours
  else
    let knownRatio :=
      solver.bind (fun s => if s = "" then none else lookupRatio stats.bySolver s)
    originalHours * clampRatio (knownRatio.getD stats.avgRatio)

/-! ## Solver registry (`solver_registry.py`).  The compiled
`summary_regex` patterns are not embedded; the matcher below takes the
regex-match outcome as an oracle argument. -/

/-- `SolverCapability` dataclass (minus the regex object). -/
structure SolverCapability where
  name : String
  capabilityTags : List String
  supportedFileTypes : List String
  requiredTools : List String
  maxComplexity : Int
  concurrency : Int
deriving DecidableEq

/-- `SOLVER_REGISTRY`, values in dict insertion order. -/
def SOLVER_REGISTRY : List SolverCapability :=
  [ ⟨"local-slm", ["quick", "text"], [], [], 3, 999⟩,
    ⟨"gemini", ["analysis", "planning", "docs", "code-review"], [], ["youtrack"], 7, 10⟩,
    ⟨"perplexity", ["research", "web-search"], [], [], 5, 1⟩,
    ⟨"angrav", ["automation", "browser", "gemini-ui"], [], [], 6, 3⟩,
    ⟨"jules", ["code", "implementation", "refactor", "bug-fix"],
      [".py", ".ts", ".js", ".go", ".md", ".sh"], [], 10, 15⟩ ]

/-- The registry key set (`tag in SOLVERS`). -/
def solverNames : List String :=
  SOLVER_REGISTRY.map (·.name)

/-! ## Availability checker (`availability_checker.py`) -/

/-- `RateLimitRecord` dataclass. -/
structure RateLimitRecord where
  model : String
  account : String
  sessionId : String
  isLimited : Bool
  availableAt : String
  availableAtUnix : Int
  detectedAt : String
  source : String
deriving DecidableEq

/-- `SolverAvailability` dataclass; `available_at` is kept as the unix
timestamp the source derives it from, and the interpolated tail of the
rate-limited reason string is elided. -/
structure SolverAvailability where
  solver : String
  available : Bool
  availableAtUnix : Option Int
  reason : Option String
deriving DecidableEq

/-- `SOLVER_MODELS`, with `solver not in SOLVER_MODELS` and
`SOLVER_MODELS[solver] is None` merged into `none`, exactly as the
guard in `check_solver_availability` merges them. -/
def SOLVER_MODELS : String → Option (List String)
  | "angrav" => some ["gemini-2.0-flash-thinking-exp", "gemini-2.0-flash-exp", "gemini-1.5-pro"]
  | "gemini" => some ["gemini-1.5-pro", "gemini-1.5-flash"]
  | _ => none

/-- The rate-limit view: `none` is an unreachable client
(`get_redis_client()` returned `None`); under `some get`, a lookup that
raises or finds no record is `none`, matching the `except`/fall-through
returns of `get_current_rate_limit`. -/
def RateLimitView : Type :=
  Option (String → Option RateLimitRecord)

/-- The per-model loop of `check_solver_availability`: stop (not all
limited) at the first model with no record, an unset limit flag, or an
expired limit; otherwise track the earliest availability time. -/
def scanModels (get : String → Option RateLimitRecord) (nowMs : Int) :
    List String → Option Int → Bool × Option Int
  | [], earliest => (true, earliest)
  | m :: rest, earliest =>
    match get m with
    | none => (false, earliest)
    | some rl =>
      if !rl.isLimited then (false, earliest)
      else if rl.availableAtUnix ≤ nowMs then (false, earliest)
      else
        let e2 :=
          match earliest with
          | none => some rl.availableAtUnix
          | some e => if rl.availableAtUnix < e then some rl.availableAtUnix else some e
        scanModels get nowMs rest e2

/-- `check_solver_availability` of `availability_checker.py`. -/
def check_solver_availability (solver : String) (view : RateLimitView) (nowMs : Int) :
    SolverAvailability :=
  match SOLVER_MODELS solver with
  | none =>
    if solver = "perplexity" then
      ⟨solver, false, none, some "No Perplexity subscription"⟩
    else
      ⟨solver, true, none, some "No rate limits"⟩
  | some models =>
    match view with
    | none => ⟨solver, true, none, some "Redis unavailable, assuming available"⟩
    | some get =>
      let sc := scanModels get nowMs models none
      if !sc.1 then ⟨solver, true, none, some "Model available"⟩
      else ⟨solver, false, sc.2, some "Rate limited"⟩

/-! ## Solver matcher (`solver_matcher.py`) -/

/-- `check_availability` of `solver_matcher.py`: the static unavailable
set is `{perplexity}`; otherwise defer to the availability checker (its
failure mode is the unreachable view, already a value here). -/
def check_availability (solver : String) (view : RateLimitView) (nowMs : Int) : Bool :=
  if solver = "perplexity" then false
  else (check_solver_availability solver view nowMs).available

/-- A YouTrack issue as the matcher reads it: the tag names and the
description text. -/
structure Issue where
  tags : List String
  description : String
deriving DecidableEq

/-- `extract_tags`: tag names with a leading `#` stripped, plus registry
names mentioned as `#name` in the lowercased description; deduplicated
(CPython returns `list(set(tags))` in hash order, which can only affect
which explicit tag wins, never the fields any claim analyses). -/
def extract_tags (issue : Issue) : List String :=
  let fromTags := issue.tags.filterMap (fun tg =>
    if tg.startsWith "#" then some (tg.drop 1)
    else if tg ∈ solverNames then some tg else none)
  let fromDesc := solverNames.filter
    (fun s => ((issue.description.toLower).splitOn ("#" ++ s)).length > 1)
  (fromTags ++ fromDesc).dedup

/-- `SolverMatch` dataclass (confidence in exact `Rat`; reason strings
keep the literal head of the source f-strings, with interpolated tails
and quotation marks elided). -/
structure SolverMatch where
  solver : String
  confidence : ℚ
  reason : String
  fallback : Option String
deriving DecidableEq

/-- `priority_boost.get(task.priority.name, 0)` of `estimate_complexity`. -/
def priorityBoost : Priority → Int
  | .SHOW_STOPPER => 2
  | .CRITICAL => 1
  | .MAJOR => 0
  | .NORMAL => 0
  | .MINOR => -1

/-- `estimate_complexity` of `solver_matcher.py`: hour bucket, then the
file-count boost clamped to at most 10, then the priority offset with
the final clamp to [1, 10]. -/
def estimate_complexity (t : Task) : Int :=
  let c1 : Int :=
    if t.estimateHours ≤ 1 then 2
    else if t.estimateHours ≤ 4 then 4
    else if t.estimateHours ≤ 8 then 6
    else if t.estimateHours ≤ 16 then 8
    else 10
  let c2 : Int :=
    if 5 < t.affectedFiles.length then min 10 (c1 + 2)
    else if 2 < t.affectedFiles.length then min 10 (c1 + 1)
    else c1
  max 1 (min 10 (c2 + priorityBoost t.priority))

/-- Modelled from the spec: the complexity formula the claim describes —
bucket plus file adjustment plus priority offset, with a single final
clamp to [1, 10] and no intermediate clamp of the file adjustment. -/
def claimComplexity (t : Task) : Int :=
  let c1 : Int :=
    if t.estimateHours ≤ 1 then 2
    else if t.estimateHours ≤ 4 then 4
    else if t.estimateHours ≤ 8 then 6
    else if t.estimateHours ≤ 16 then 8
    else 10
  let fa : Int :=
    if 5 < t.affectedFiles.length then 2
    else if 2 < t.affectedFiles.length then 1
    else 0
  max 1 (min 10 (c1 + fa + priorityBoost t.priority))

/-- The ratio-to-score conversion of `get_historical_success`. -/
def histScoreOfRatio (ratio : ℚ) : ℚ :=
  if ratio ≤ 1 then 8/10 + (1 - ratio) * (2/10)
  else max (3/10) (8/10 - (ratio - 1) * (3/10))

/-- `get_historical_success` of `solver_matcher.py`, over an explicit
history snapshot (its `except` branch is the unreachable history file,
already a value here): default 0.7 under 3 records or for an unknown
solver, otherwise the converted per-solver ratio. -/
def get_historical_success (cs : List TaskCompletion) (solverName : String) : ℚ :=
  if cs.length < 3 then 7/10
  else ((lookupRatio (calculate_calibration cs).bySolver solverName).map
    histScoreOfRatio).getD (7/10)

/-- `Path(f).suffix` (pathlib): the final dot-extension of the last path
component; empty for dotless names, hidden files and trailing dots. -/
def pathSuffix (f : String) : String :=
  let nm := (f.splitOn "/").getLastD ""
  match nm.splitOn "." with
  | [] => ""
  | [_] => ""
  | p :: rest =>
    let ext := rest.getLastD ""
    if p = "" ∧ rest.length = 1 then ""
    else if ext = "" then ""
    else "." ++ ext

/-- The capability score of the scoring branch of `match_solver`:
+0.4 when some affected-file extension is supported. -/
def capScore (s : SolverCapability) (t : Task) : ℚ :=
  if s.supportedFileTypes.isEmpty then 0
  else
    let exts := ((t.affectedFiles.map pathSuffix).filter (fun e => !(e == ""))).dedup
    if !exts.isEmpty && exts.any (fun e => decide (e ∈ s.supportedFileTypes)) then 4/10
    else 0

/-- `complexity_fit = 1 - abs(solver.max_complexity - complexity) / 10`. -/
def complexityFit (s : SolverCapability) (complexity : Int) : ℚ :=
  1 - (((s.maxComplexity - complexity).natAbs : ℚ) / 10)

/-- The weighted total of the scoring branch of `match_solver`. -/
def totalScore (s : SolverCapability) (t : Task) (cs : List TaskCompletion) : ℚ :=
  capScore s t * (3/10) + get_historical_success cs s.name * (4/10)
    + complexityFit s (estimate_complexity t) * (3/10)

/-- Earliest maximum of a scored list: what the stable descending sort of
`match_solver` puts first. -/
def bestScored (x : SolverCapability × ℚ) (xs : List (SolverCapability × ℚ)) :
    SolverCapability × ℚ :=
  xs.foldl (fun acc y => if acc.2 < y.2 then y else acc) x

/-- `match_solver` of `solver_matcher.py`.  `rm name summary` is the
outcome of `SOLVERS[name].summary_regex.search(summary)`. -/
def match_solver (t : Task) (issue : Issue) (cs : List TaskCompletion)
    (view : RateLimitView) (nowMs : Int) (rm : String → String → Bool)
    (requireAvailable : Bool) : SolverMatch :=
  let explicitTags := extract_tags issue
  match explicitTags.find? (fun tg =>
      decide (tg ∈ solverNames) && (!requireAvailable || check_availability tg view nowMs)) with
  | some tg => ⟨tg, 1, "explicit tag #" ++ tg, none⟩
  | none =>
    match SOLVER_REGISTRY.find? (fun s =>
        rm s.name t.summary && (!requireAvailable || check_availability s.name view nowMs)) with
    | some s => ⟨s.name, 9/10, "summary regex match", none⟩
    | none =>
      let complexity := estimate_complexity t
      let cands0 := SOLVER_REGISTRY.filter (fun s => decide (complexity ≤ s.maxComplexity))
      let cands :=
        if requireAvailable then cands0.filter (fun s => check_availability s.name view nowMs)
        else cands0
      match cands.map (fun s => (s, totalScore s t cs)) with
      | [] => ⟨"jules", 3/10, "fallback to most capable", some "gemini"⟩
      | x :: xs =>
        let best := bestScored x xs
        let fb :=
          match (x :: xs).erase best with
          | [] => none
          | y :: ys => some (bestScored y ys).1.name
        ⟨best.1.name, best.2, "capability match", fb⟩

/-! ## Concrete inputs used by counterexamples and witnesses -/

/-- A task with the given id, prerequisites and files (other fields at
the defaults of the `Task` dataclass). -/
def mkTask (i : String) (deps : List String) (files : List String) : Task :=
  ⟨i, "", "G", .NORMAL, 4, deps, [], files, none⟩

/-- Three tasks: A and B touch the same file, C depends on B. -/
def rBatch : PlanRequest :=
  ⟨[mkTask "A" [] ["f"], mkTask "B" [] ["f"], mkTask "C" ["B"] ["g"]], [], 40, 15⟩

/-- The two-task dependency cycle of scenario S4. -/
def rCycle : PlanRequest :=
  ⟨[mkTask "T1" ["T2"] [], mkTask "T2" ["T1"] []], [], 40, 15⟩

/-- Two equal-priority independent tasks, inserted as b then a. -/
def rTie : PlanRequest :=
  ⟨[mkTask "b" [] [], mkTask "a" [] []], [], 40, 15⟩

/-- One task, one goal containing exactly that task. -/
def rGoal : PlanRequest :=
  ⟨[mkTask "T0" [] []], [⟨"G1", "g", 1, ["T0"]⟩], 40, 15⟩

def histC7 : List TaskCompletion :=
  [⟨"t1", 1, 100, "s", "", true, none⟩, ⟨"t2", 1, 100, "s", "", true, none⟩,
   ⟨"t3", 1, 100, "s", "", true, none⟩]

/-- The amended complexity formula: hour bucket plus file adjustment,
that sum clamped to at most 10, then the priority offset, then the final
clamp to [1, 10]. -/
def amendedComplexity (t : Task) : Int :=
  let bucket : Int :=
    if t.estimateHours ≤ 1 then 2
    else if t.estimateHours ≤ 4 then 4
    else if t.estimateHours ≤ 8 then 6
    else if t.estimateHours ≤ 16 then 8
    else 10
  let fileAdj : Int :=
    if 5 < t.affectedFiles.length then 2
    else if 2 < t.affectedFiles.length then 1
    else 0
  max 1 (min 10 (min 10 (bucket + fileAdj) + priorityBoost t.priority))

/-- A 17-hour, six-file, MINOR-priority task: the input separating
`estimate_complexity` from the formula of the claim. -/
def tC8 : Task :=
  ⟨"t", "", "G", .MINOR, 17, [], [], ["1", "2", "3", "4", "5", "6"], none⟩

/-! ## Theorems -/

/-- The estimated complexity always lands in [1, 10]. -/
lemma estimate_complexity_bounds (t : Task) :
    1 ≤ estimate_complexity t ∧ estimate_complexity t ≤ 10 := by
  unfold estimate_complexity
  dsimp only
  split_ifs <;> simp [priorityBoost]

/-- C8 (counterexample).  A 17-hour MINOR task touching six files has
estimated complexity 9, while the formula of the claim — bucket 10 plus
file adjustment 2 plus priority offset −1, clamped once at the end —
gives 10: the source clamps the file adjustment to 10 before applying
the priority offset. -/
theorem C8_counterexample :
    estimate_complexity tC8 = 9 ∧ claimComplexity tC8 = 10 := by
  constructor <;> decide

/-- C8 (amended).  The estimated complexity equals the hour bucket plus
the file adjustment with that sum clamped to at most 10, plus the
priority offset, clamped to [1, 10]; in particular it always lies in
[1, 10]. -/
theorem C8_complexity_amended (t : Task) :
    estimate_complexity t = amendedComplexity t
      ∧ 1 ≤ estimate_complexity t ∧ estimate_complexity t ≤ 10 := by
  refine ⟨?_, estimate_complexity_bounds t⟩
  unfold estimate_complexity amendedComplexity
  dsimp only
  split_ifs <;> simp [priorityBoost]

/-- C9 (counterexample).  With the rate-limit view unreachable, the
statically unavailable solver perplexity still reports available=false,
so not every solver reports available=true. -/
theorem C9_counterexample :
    (check_solver_availability "perplexity" none 0).available = false
      ∧ check_availability "perplexity" none 0 = false := by
  constructor <;> decide

/-- C9 (amended).  When the rate-limit view is unreachable — the client
cannot connect (`none`) or every lookup raises (`some fun _ => none`) —
every solver other than the statically unavailable perplexity reports
available=true, and for the solvers that do have rate-limited models the
connection-failure reason is tagged "Redis unavailable, assuming
available". -/
theorem C9_unreachable_view (solver : String) (nowMs : Int)
    (h : solver ≠ "perplexity") :
    (check_solver_availability solver none nowMs).available = true
      ∧ (check_solver_availability solver (some fun _ => none) nowMs).available = true
      ∧ (∀ models, SOLVER_MODELS solver = some models →
          (check_solver_availability solver none nowMs).reason
            = some "Redis unavailable, assuming available") := by
  rcases hm : SOLVER_MODELS solver with _ | models
  · simp [check_solver_availability, hm, h]
  · have hmodels : models = ["gemini-2.0-flash-thinking-exp", "gemini-2.0-flash-exp",
        "gemini-1.5-pro"] ∨ models = ["gemini-1.5-pro", "gemini-1.5-flash"] := by
      unfold SOLVER_MODELS at hm
      split at hm
      · exact Or.inl (by injection hm with h2; exact h2.symm)
      · exact Or.inr (by injection hm with h2; exact h2.symm)
      · exact absurd hm (by simp)
    refine ⟨by simp [check_solver_availability, hm], ?_, ?_⟩
    · rcases hmodels with h2 | h2 <;>
        simp [check_solver_availability, hm, h2, scanModels]
    · intro _ _
      simp [check_solver_availability, hm]

/-- C9 (witness): the amended statement at solver "angrav" and time 0. -/
theorem C9_witness :
    (check_solver_availability "angrav" none 0).available = true
      ∧ (check_solver_availability "angrav" (some fun _ => none) 0).available = true := by
  have h := C9_unreachable_view "angrav" 0 (by decide)
  exact ⟨h.1, h.2.1⟩

/-- Modelled from the spec: the `blocked_goals` set the claim describes —
goals whose task set meets `transitive(T) ∪ {T}`. -/
def claimBlockedGoals (r : PlanRequest) (tid : String) (trans : Finset String) :
    Finset String :=
  ((r.goals.filter (fun g => decide (∃ x ∈ g.tasks, x ∈ insert tid trans))).map (·.id)).toFinset

/-- The amended `blocked_goals` set: goals whose task set meets
`transitive(T)` alone. -/
def amendedBlockedGoals (r : PlanRequest) (trans : Finset String) : Finset String :=
  ((r.goals.filter (fun g => decide (∃ x ∈ g.tasks, x ∈ trans))).map (·.id)).toFinset

/-- Membership in one `blocked_goals` fold step: the first insertion
condition is subsumed by the second, so a goal id is added exactly when
its task set meets the transitive set. -/
lemma bgStep_mem (tid : String) (trans acc : Finset String) (gl : Goal) (g : String) :
    g ∈ bgStep tid trans acc gl
      ↔ g ∈ acc ∨ (gl.id = g ∧ ∃ x ∈ gl.tasks, x ∈ trans) := by
  unfold bgStep
  dsimp only
  split_ifs with h1 h2 h2 <;> simp_all [eq_comm] <;> tauto

/-- Membership after folding `bgStep` over a goal list. -/
lemma bgFold_mem (tid : String) (trans : Finset String) :
    ∀ (gs : List Goal) (acc : Finset String) (g : String),
      g ∈ gs.foldl (bgStep tid trans) acc
        ↔ g ∈ acc ∨ ∃ gl ∈ gs, gl.id = g ∧ ∃ x ∈ gl.tasks, x ∈ trans
  | [], acc, g => by simp
  | gl :: gs, acc, g => by
    rw [List.foldl_cons, bgFold_mem tid trans gs, bgStep_mem]
    simp only [List.mem_cons]
    constructor
    · rintro ((h | h) | ⟨gl2, h2, h3⟩)
      · exact Or.inl h
      · exact Or.inr ⟨gl, Or.inl rfl, h⟩
      · exact Or.inr ⟨gl2, Or.inr h2, h3⟩
    · rintro (h | ⟨gl2, (rfl | h2), h3⟩)
      · exact Or.inl (Or.inl h)
      · exact Or.inl (Or.inr h3)
      · exact Or.inr ⟨gl2, h2, h3⟩

/-- C4 (amended).  The `blocked_goals` computed by the value-impact
analysis equals the set of goal ids whose task set meets `transitive(T)`
alone: the source condition `task.id in goal_tasks and (transitive &
goal_tasks)` is subsumed by the unconditional `transitive & goal_tasks`
check, so a goal containing T itself but disjoint from `transitive(T)`
is not included. -/
theorem C4_blocked_goals_eq (r : PlanRequest) (tid : String) :
    blocked_goals r tid (transitiveBlockers r tid)
      = amendedBlockedGoals r (transitiveBlockers r tid) := by
  ext g
  rw [blocked_goals, bgFold_mem]
  simp only [amendedBlockedGoals, List.mem_toFinset, List.mem_map, List.mem_filter,
    decide_eq_true_eq, Finset.not_mem_empty, false_or]
  tauto

/-- C4 (counterexample).  One task T0 and one goal G1 = {T0}: T0 has an
empty transitive set, the source computes no blocked goals, yet the set
described by the claim contains G1. -/
theorem C4_counterexample :
    blocked_goals rGoal "T0" (transitiveBlockers rGoal "T0") = ∅
      ∧ claimBlockedGoals rGoal "T0" (transitiveBlockers rGoal "T0") = {"G1"} := by
  constructor <;> decide

/-- C3.  No output path of the Pareto filter is dominated by another
output path, and whenever the non-dominated list is empty the filter
returns the first candidate (`paths[:1]`). -/
theorem C3_pareto_frontier (paths : List PlanPath) :
    (∀ p ∈ compute_pareto_frontier paths, ∀ q ∈ compute_pareto_frontier paths,
        q ≠ p → PlanPath.dominates q p = false)
      ∧ ((nonDominated paths).isEmpty = true
          → compute_pareto_frontier paths = paths.take 1) := by
  constructor
  · intro p hp q hq hne
    unfold compute_pareto_frontier at hp hq
    by_cases hemp : paths.isEmpty
    · simp [hemp] at hp
    · by_cases hfr : (nonDominated paths).isEmpty
      · simp only [hemp, if_false, hfr, if_true] at hp hq
        cases paths with
        | nil => simp at hemp
        | cons a l =>
          have hp2 : p = a := by simpa using hp
          have hq2 : q = a := by simpa using hq
          exact absurd (hq2.trans hp2.symm) hne
      · simp only [hemp, if_false, hfr] at hp hq
        have hq2 : q ∈ paths := (List.mem_filter.mp hq).1
        have hp2 := (List.mem_filter.mp hp).2
        rw [Bool.not_eq_true', List.any_eq_false] at hp2
        have h3 := hp2 q hq2
        simpa [hne] using h3
  · intro hfr
    unfold compute_pareto_frontier
    by_cases hemp : paths.isEmpty
    · have : paths = [] := List.isEmpty_iff.mp hemp
      simp [this]
    · simp [hemp, hfr]

/-- Two incomparable integer-scored paths, used to instantiate C3. -/
def pSpeed : PlanPath := ⟨[], 0, [], [], 1, 0, 0⟩

/-- Second incomparable path for the C3 witness. -/
def pCover : PlanPath := ⟨[], 0, [], [], 0, 1, 0⟩

/-- C3 (witness): on the two-path list both paths survive, and the
theorem yields that neither dominates the other inside the output. -/
theorem C3_witness :
    PlanPath.dominates pCover pSpeed = false := by
  exact (C3_pareto_frontier [pSpeed, pCover]).1 pSpeed (by decide) pCover (by decide) (by decide)

/-- Two members of a batch never touch a common file. -/
def FilesDisjoint (r : PlanRequest) (a b : String) : Prop :=
  ∀ f ∈ filesOf r a, f ∉ filesOf r b

/-- Invariant of the batch loop: the batch stays within the size cap,
every admitted file is claimed, and members stay pairwise disjoint. -/
lemma batchLoop_inv (r : PlanRequest) (maxSize : Nat) :
    ∀ (rest batch used : List String),
      batch.length ≤ maxSize →
      (∀ b ∈ batch, ∀ f ∈ filesOf r b, f ∈ used) →
      batch.Pairwise (FilesDisjoint r) →
      (batchLoop r maxSize rest batch used).length ≤ maxSize
        ∧ (batchLoop r maxSize rest batch used).Pairwise (FilesDisjoint r)
  | [], batch, used, hlen, _, hpw => ⟨hlen, hpw⟩
  | i :: rest, batch, used, hlen, hused, hpw => by
    rw [batchLoop]
    split_ifs with hfull hconf
    · exact ⟨hlen, hpw⟩
    · exact batchLoop_inv r maxSize rest batch used hlen hused hpw
    · have hnoconf : ∀ f ∈ filesOf r i, f ∉ used := by
        intro f hf hfin
        exact hconf (List.any_eq_true.mpr ⟨f, hf, by simpa using hfin⟩)
      refine batchLoop_inv r maxSize rest (batch ++ [i]) (used ++ filesOf r i) ?_ ?_ ?_
      · have : batch.length < maxSize := Nat.lt_of_not_le hfull
        simpa using this
      · intro b hb f hf
        rcases List.mem_append.mp hb with hb | hb
        · exact List.mem_append.mpr (Or.inl (hused b hb f hf))
        · have : b = i := List.mem_singleton.mp hb
          subst this
          exact List.mem_append.mpr (Or.inr hf)
      · rw [List.pairwise_append]
        refine ⟨hpw, List.pairwise_singleton _ _, ?_⟩
        intro a ha b hb f hf
        have : b = i := List.mem_singleton.mp hb
        subst this
        intro hfi
        exact hnoconf f hfi (hused a ha f hf)

/-- C1 (amended).  Every batch the selector produces has size at most
the cap and is pairwise file-disjoint; dependency closure is not part of
the loop and can fail (see the counterexample). -/
theorem C1_batch_bounds (r : PlanRequest) (ordered : List String) (maxSize : Nat) :
    (select_parallel_batch r ordered maxSize).length ≤ maxSize
      ∧ (select_parallel_batch r ordered maxSize).Pairwise (FilesDisjoint r) := by
  exact batchLoop_inv r maxSize ordered [] [] (by simp) (by simp) (by simp)

/-- C1 (counterexample).  In `rBatch`, B is skipped for its file conflict
with A, yet C — whose only prerequisite is B — is admitted: the planning
call passes no completed-task information, so the batch is not
dependency-closed. -/
theorem C1_counterexample :
    "C" ∈ immediate_batch rBatch ∧ "B" ∈ depsOf rBatch "C"
      ∧ "B" ∉ immediate_batch rBatch := by
  refine ⟨by decide, by decide, by decide⟩

/-! ### History calibration (C7) -/

/-- The ratios contributed by one solver, in history order. -/
def solverRatios (cs : List TaskCompletion) (s : String) : List ℚ :=
  ratios (cs.filter (fun c => c.solver == s))

/-- The overall mean ratio (1 when no completion has a positive estimate). -/
def overallRatio (cs : List TaskCompletion) : ℚ :=
  if ratios cs = [] then 1 else (ratios cs).sum / ((ratios cs).length : ℚ)

/-- The multiplier `calibrate_estimate` ends up applying: the per-solver
mean ratio when a (non-empty-named) solver contributed some ratio, the
overall mean ratio otherwise.  No clamping anywhere. -/
def effectiveRatio (solver : Option String) (cs : List TaskCompletion) : ℚ :=
  (solver.bind (fun s =>
      if s = "" then none
      else if solverRatios cs s = [] then none
      else some ((solverRatios cs s).sum / ((solverRatios cs s).length : ℚ)))).getD
    (overallRatio cs)

def lookupList : List (String × List ℚ) → String → Option (List ℚ)
  | [], _ => none
  | p :: rest, s => if p.1 = s then some p.2 else lookupList rest s

lemma lookupList_isSome (s : String) (acc : List (String × List ℚ)) :
    (lookupList acc s).isSome = acc.any (fun p => p.1 == s) := by
  induction acc with
  | nil => simp [lookupList]
  | cons p rest ih =>
    by_cases h : p.1 = s <;> simp [lookupList, h, ih]

lemma lookupList_update (s : String) (x : ℚ) (acc : List (String × List ℚ)) :
    lookupList (acc.map (fun p => if p.1 = s then (p.1, p.2 ++ [x]) else p)) s
      = (lookupList acc s).map (fun l => l ++ [x]) := by
  induction acc with
  | nil => simp [lookupList]
  | cons p rest ih =>
    by_cases h : p.1 = s <;> simp [lookupList, h, ih]

lemma lookupList_update_ne (s s2 : String) (x : ℚ) (h : s2 ≠ s)
    (acc : List (String × List ℚ)) :
    lookupList (acc.map (fun p => if p.1 = s then (p.1, p.2 ++ [x]) else p)) s2
      = lookupList acc s2 := by
  induction acc with
  | nil => simp [lookupList]
  | cons p rest ih =>
    by_cases hp : p.1 = s
    · have hne : p.1 ≠ s2 := by rw [hp]; exact Ne.symm h
      simp [lookupList, hp, hne, ih, Ne.symm h]
    · by_cases hq : p.1 = s2 <;> simp [lookupList, hp, hq, ih, h]

lemma lookupList_append_none (s : String) (l2 acc : List (String × List ℚ))
    (h : lookupList acc s = none) :
    lookupList (acc ++ l2) s = lookupList l2 s := by
  induction acc with
  | nil => simp
  | cons p rest ih =>
    by_cases hp : p.1 = s
    · simp [lookupList, hp] at h
    · simp only [lookupList, hp, if_false, List.cons_append] at h ⊢
      exact ih h

lemma lookupList_append_some (s : String) (l2 acc : List (String × List ℚ))
    (l : List ℚ) (h : lookupList acc s = some l) :
    lookupList (acc ++ l2) s = some l := by
  induction acc with
  | nil => simp [lookupList] at h
  | cons p rest ih =>
    by_cases hp : p.1 = s
    · simp only [lookupList, hp, if_true, List.cons_append] at h ⊢
      simpa using h
    · simp only [lookupList, hp, if_false, List.cons_append] at h ⊢
      exact ih h

lemma lookupList_addRatio_self (acc : List (String × List ℚ)) (s : String) (x : ℚ) :
    lookupList (addRatio acc s x) s = some ((lookupList acc s).getD [] ++ [x]) := by
  unfold addRatio
  by_cases hpres : acc.any (fun p => p.1 == s)
  · rw [if_pos hpres]
    have hlam : (fun p : String × List ℚ => if p.1 == s then (p.1, p.2 ++ [x]) else p)
        = fun p : String × List ℚ => if p.1 = s then (p.1, p.2 ++ [x]) else p := by
      funext p
      by_cases hp : p.1 = s <;> simp [hp]
    rw [hlam, lookupList_update]
    have h1 : (lookupList acc s).isSome := by rw [lookupList_isSome]; exact hpres
    obtain ⟨l, hl⟩ := Option.isSome_iff_exists.mp h1
    simp [hl]
  · rw [if_neg hpres]
    have hnone : lookupList acc s = none := by
      have h2 := lookupList_isSome s acc
      rw [Bool.eq_false_iff.mpr hpres] at h2
      exact Option.not_isSome_iff_eq_none.mp (by simp [h2])
    rw [lookupList_append_none s _ acc hnone, hnone]
    simp [lookupList]

lemma lookupList_addRatio_ne (acc : List (String × List ℚ)) (s s2 : String) (x : ℚ)
    (h : s2 ≠ s) :
    lookupList (addRatio acc s x) s2 = lookupList acc s2 := by
  unfold addRatio
  by_cases hpres : acc.any (fun p => p.1 == s)
  · rw [if_pos hpres]
    have hlam : (fun p : String × List ℚ => if p.1 == s then (p.1, p.2 ++ [x]) else p)
        = fun p : String × List ℚ => if p.1 = s then (p.1, p.2 ++ [x]) else p := by
      funext p
      by_cases hp : p.1 = s <;> simp [hp]
    rw [hlam]
    exact lookupList_update_ne s s2 x h acc
  · rw [if_neg hpres]
    cases hv : lookupList acc s2 with
    | none =>
      rw [lookupList_append_none s2 _ acc hv]
      simp [lookupList, Ne.symm h]
    | some l => exact lookupList_append_some s2 _ acc l hv

lemma lookupList_fold (s : String) :
    ∀ (cs : List TaskCompletion) (acc : List (String × List ℚ)),
      lookupList
          (cs.foldl
            (fun acc c =>
              if 0 < c.estimatedHours then addRatio acc c.solver (c.actualHours / c.estimatedHours)
              else acc)
            acc) s
        = if solverRatios cs s = [] then lookupList acc s
          else some ((lookupList acc s).getD [] ++ solverRatios cs s)
  | [], acc => by simp [solverRatios, ratios]
  | c :: cs, acc => by
    rw [List.foldl_cons]
    by_cases hest : 0 < c.estimatedHours
    · by_cases hsol : c.solver = s
      · have hsr : solverRatios (c :: cs) s
            = (c.actualHours / c.estimatedHours) :: solverRatios cs s := by
          simp [solverRatios, ratios, hsol, hest]
        rw [if_pos hest, lookupList_fold s cs, hsr]
        subst hsol
        rw [lookupList_addRatio_self]
        by_cases hrest : solverRatios cs c.solver = []
        · simp [hrest]
        · simp [hrest]
      · have hsr : solverRatios (c :: cs) s = solverRatios cs s := by
          simp only [solverRatios, ratios, List.filter_cons]
          have : (c.solver == s) = false := by simpa using hsol
          simp [this]
        rw [if_pos hest, lookupList_fold s cs, hsr,
          lookupList_addRatio_ne _ _ _ _ (fun e => hsol e.symm)]
    · have hsr : solverRatios (c :: cs) s = solverRatios cs s := by
        by_cases hsol : c.solver = s
        · simp [solverRatios, ratios, List.filter_cons, hsol, hest]
        · have : (c.solver == s) = false := by simpa using hsol
          simp [solverRatios, ratios, List.filter_cons, this]
      rw [if_neg hest, lookupList_fold s cs, hsr]

lemma lookupRatio_stats (cs : List TaskCompletion) (s : String) :
    lookupRatio ((bySolverLists cs).map (fun p => (p.1, p.2.sum / (p.2.length : ℚ)))) s
      = (lookupList (bySolverLists cs) s).map (fun l => l.sum / (l.length : ℚ)) := by
  generalize bySolverLists cs = l
  induction l with
  | nil => simp [lookupRatio, lookupList]
  | cons p rest ih =>
    by_cases h : p.1 = s
    · unfold lookupRatio
      rw [List.map_cons, List.find?_cons]
      simp [lookupList, h]
    · unfold lookupRatio
      rw [List.map_cons, List.find?_cons]
      have hb : ((p.1, p.2.sum / (p.2.length : ℚ)).1 == s) = false := by simpa using h
      rw [hb]
      have ih2 := ih
      unfold lookupRatio at ih2
      rw [ih2]
      simp [lookupList, h]

/-- C7 (amended).  `calibrate_estimate` returns the original hours when
the history has fewer than 3 records; otherwise it multiplies them by
the per-solver mean ratio when the solver is known (named, and with at
least one positive-estimate record) and by the overall mean ratio
otherwise.  No ratio is clamped. -/
theorem C7_calibrate_characterisation (orig : ℚ) (solver : Option String)
    (cs : List TaskCompletion) :
    calibrate_estimate orig solver cs
      = if cs.length < 3 then orig else orig * effectiveRatio solver cs := by
  unfold calibrate_estimate calculate_calibration effectiveRatio
  by_cases hemp : cs.isEmpty
  · have : cs = [] := List.isEmpty_iff.mp hemp
    simp [this]
  · rw [if_neg hemp]
    dsimp only
    by_cases hlen : cs.length < 3
    · simp [hlen]
    · rw [if_neg hlen, if_neg hlen]
      have havg : (if (ratios cs).isEmpty = true then (1 : ℚ)
          else (ratios cs).sum / ((ratios cs).length : ℚ)) = overallRatio cs := by
        unfold overallRatio
        by_cases h : ratios cs = [] <;> simp [h]
      have hbind : ∀ s : String,
          (if s = "" then none else lookupRatio
            ((bySolverLists cs).map (fun p => (p.1, p.2.sum / (p.2.length : ℚ)))) s)
          = (if s = "" then none
             else if solverRatios cs s = [] then none
             else some ((solverRatios cs s).sum / ((solverRatios cs s).length : ℚ))) := by
        intro s
        by_cases hs : s = ""
        · rw [if_pos hs, if_pos hs]
        · rw [if_neg hs, if_neg hs]
          have hfold : lookupList (bySolverLists cs) s
              = (if solverRatios cs s = [] then none else some (solverRatios cs s)) := by
            have h0 := lookupList_fold s cs []
            by_cases hsr : solverRatios cs s = [] <;>
              simpa [lookupList, hsr] using h0
          have hlook := lookupRatio_stats cs s
          rw [hfold] at hlook
          by_cases hsr : solverRatios cs s = []
          · rw [if_pos hsr] at hlook ⊢
            simpa using hlook
          · rw [if_neg hsr] at hlook ⊢
            simpa using hlook
      cases solver with
      | none =>
        simp only [Option.none_bind, Option.getD_none]
        rw [havg]
      | some s => simp only [Option.some_bind, hbind s, havg]

/-- C7 (counterexample).  Three records estimated at 1 hour that each
took 100 give a mean ratio of 100; the source multiplies by 100 while
the clamped calibration of the claim multiplies by 10. -/
theorem C7_counterexample :
    calibrate_estimate 1 (some "s") histC7 = 100
      ∧ claimCalibrate 1 (some "s") histC7 = 10 := by
  have hs : ¬("s" : String) = "" := by decide
  constructor
  · norm_num [calibrate_estimate, calculate_calibration, ratios, bySolverLists, addRatio,
      lookupRatio, histC7, List.find?]
    rw [if_neg hs]
    rfl
  · norm_num [claimCalibrate, calculate_calibration, ratios, bySolverLists, addRatio,
      lookupRatio, histC7, List.find?, clampRatio]
    rw [if_neg hs]
    norm_num [max_def, min_def]

/-! ### Value score (C5) -/

/-- Modelled from the spec: the composite-score formula of the claim,
with a zero denominator contributing zero. -/
def claimValueFormula (r : PlanRequest) (tid : String) : ℚ :=
  (if (r.tasks.length : ℚ) = 0 then 0
    else 40 * (((transitiveBlockers r tid).card : ℚ) / (r.tasks.length : ℚ)))
  + (if ((totalHours r : Int) : ℚ) = 0 then 0
    else 40 * (((blockedHours r (transitiveBlockers r tid) : Int) : ℚ) / ((totalHours r : Int) : ℚ)))
  + (if (r.goals.length : ℚ) = 0 then 0
    else 20 * (((blocked_goals r tid (transitiveBlockers r tid)).card : ℚ) / (r.goals.length : ℚ)))

/-- `taskById` only returns tasks of the request. -/
lemma taskById_mem (r : PlanRequest) (i : String) (t : Task)
    (h : taskById r i = some t) : t ∈ r.tasks := by
  unfold taskById at h
  have haux : ∀ (l : List Task) (acc : Option Task),
      (l.foldl (fun acc t => if t.id = i then some t else acc) acc = some t) →
      (acc = some t ∨ t ∈ l) := by
    intro l
    induction l with
    | nil => intro acc h2; exact Or.inl h2
    | cons a rest ih =>
      intro acc h2
      rw [List.foldl_cons] at h2
      rcases ih _ h2 with h3 | h3
      · by_cases ha : a.id = i
        · rw [if_pos ha] at h3
          exact Or.inr (List.mem_cons.mpr (Or.inl (by injection h3 with e; exact e.symm)))
        · rw [if_neg ha] at h3
          exact Or.inl h3
      · exact Or.inr (List.mem_cons.mpr (Or.inr h3))
  rcases haux r.tasks none h with h2 | h2
  · exact absurd h2 (by simp)
  · exact h2

/-- A fold that keeps the last id match returns its accumulator when no
element matches. -/
lemma foldl_find_skip (i : String) :
    ∀ (l : List Task) (acc : Option Task), (∀ u ∈ l, u.id ≠ i) →
      l.foldl (fun acc u => if u.id = i then some u else acc) acc = acc
  | [], acc, _ => rfl
  | a :: rest, acc, h => by
    rw [List.foldl_cons, if_neg (h a (List.mem_cons_self a rest))]
    exact foldl_find_skip i rest acc (fun u hu => h u (List.mem_cons_of_mem a hu))

/-- With distinct ids the dict build maps each task id to its task. -/
lemma taskById_eq_of_nodup :
    ∀ (l : List Task), (l.map (·.id)).Nodup →
      ∀ t ∈ l, l.foldl (fun acc u => if u.id = t.id then some u else acc) none = some t
  | [], _, t, ht => absurd ht (by simp)
  | a :: rest, hnd, t, ht => by
    rw [List.map_cons, List.nodup_cons] at hnd
    rcases List.mem_cons.mp ht with rfl | ht2
    · rw [List.foldl_cons, if_pos rfl]
      refine foldl_find_skip t.id rest (some t) ?_
      intro u hu he
      exact hnd.1 (he ▸ List.mem_map_of_mem (·.id) hu)
    · have hne : a.id ≠ t.id := by
        intro he
        exact hnd.1 (he ▸ List.mem_map_of_mem (·.id) ht2)
      rw [List.foldl_cons, if_neg hne]
      exact taskById_eq_of_nodup rest hnd.2 t ht2

/-- With distinct ids, `taskById` returns exactly the listed task. -/
lemma taskById_of_nodup (r : PlanRequest) (hnd : (taskIds r).Nodup)
    (t : Task) (ht : t ∈ r.tasks) : taskById r t.id = some t :=
  taskById_eq_of_nodup r.tasks hnd t ht

/-- `blocks` only holds task ids. -/
lemma blocksOf_subset (r : PlanRequest) (i : String) :
    ∀ x ∈ blocksOf r i, x ∈ taskIds r := by
  intro x hx
  unfold blocksOf at hx
  split_ifs at hx with h
  · obtain ⟨t, ht, rfl⟩ := List.mem_map.mp hx
    exact List.mem_map_of_mem (·.id) (List.mem_of_mem_filter ht)
  · simp at hx

/-- One closure step stays inside the task-id set. -/
lemma closureStep_subset (r : PlanRequest) (s : Finset String)
    (h : s ⊆ (taskIds r).toFinset) : closureStep r s ⊆ (taskIds r).toFinset := by
  unfold closureStep
  intro x hx
  rcases Finset.mem_union.mp hx with hx | hx
  · exact h hx
  · obtain ⟨i, _, hxi⟩ := Finset.mem_biUnion.mp hx
    rw [List.mem_toFinset] at hxi ⊢
    exact blocksOf_subset r i x hxi

/-- The transitive-blocker set only holds task ids. -/
lemma transitiveBlockers_subset (r : PlanRequest) (i : String) :
    transitiveBlockers r i ⊆ (taskIds r).toFinset := by
  unfold transitiveBlockers
  generalize r.tasks.length = n
  induction n with
  | zero =>
    intro x hx
    rw [Function.iterate_zero_apply, List.mem_toFinset] at hx
    rw [List.mem_toFinset]
    exact blocksOf_subset r i x hx
  | succ n ih =>
    rw [Function.iterate_succ_apply']
    exact closureStep_subset r _ ih

/-- With non-negative estimates the blocked hours are non-negative. -/
lemma blockedHours_nonneg (r : PlanRequest) (trans : Finset String)
    (hest : ∀ t ∈ r.tasks, 0 ≤ t.estimateHours) : 0 ≤ blockedHours r trans := by
  unfold blockedHours
  refine Finset.sum_nonneg ?_
  intro i _
  cases h : taskById r i with
  | none => simp
  | some t =>
    simpa using hest t (taskById_mem r i t h)

/-- Summing the lookup estimate over all task ids is the total. -/
lemma sum_est_eq_totalHours (r : PlanRequest) (hnd : (taskIds r).Nodup) :
    ((taskIds r).toFinset.sum (fun i =>
        match taskById r i with
        | some t => t.estimateHours
        | none => 0)) = totalHours r := by
  rw [List.sum_toFinset _ hnd]
  unfold totalHours
  have hmap : (taskIds r).map (fun i =>
      match taskById r i with
      | some t => t.estimateHours
      | none => 0) = r.tasks.map (·.estimateHours) := by
    unfold taskIds
    rw [List.map_map]
    refine List.map_congr_left ?_
    intro t ht
    simp only [Function.comp_apply, taskById_of_nodup r hnd t ht]
  rw [hmap]

/-- With non-negative estimates the blocked hours never exceed the total. -/
lemma blockedHours_le (r : PlanRequest) (hnd : (taskIds r).Nodup)
    (hest : ∀ t ∈ r.tasks, 0 ≤ t.estimateHours) (trans : Finset String)
    (hsub : trans ⊆ (taskIds r).toFinset) :
    blockedHours r trans ≤ totalHours r := by
  unfold blockedHours
  rw [← sum_est_eq_totalHours r hnd]
  refine Finset.sum_le_sum_of_subset_of_nonneg hsub ?_
  intro i _ _
  cases h : taskById r i with
  | none => simp
  | some t =>
    simpa using hest t (taskById_mem r i t h)

/-- The blocked-goal count never exceeds the number of goals. -/
lemma blocked_goals_card_le (r : PlanRequest) (tid : String) (trans : Finset String) :
    (blocked_goals r tid trans).card ≤ r.goals.length := by
  have hsub : blocked_goals r tid trans ⊆ (r.goals.map (·.id)).toFinset := by
    intro g hg
    rw [blocked_goals, bgFold_mem] at hg
    rcases hg with h | ⟨gl, hgl, hid, _⟩
    · simp at h
    · exact List.mem_toFinset.mpr (hid ▸ List.mem_map_of_mem (·.id) hgl)
  calc (blocked_goals r tid trans).card
      ≤ ((r.goals.map (·.id)).toFinset).card := Finset.card_le_card hsub
    _ ≤ (r.goals.map (·.id)).length := List.toFinset_card_le _
    _ = r.goals.length := List.length_map _ _

/-- Rounding to one decimal keeps a [0, 100] value in [0, 100]. -/
lemma roundTo1_bounds (q : ℚ) (h0 : 0 ≤ q) (h100 : q ≤ 100) :
    0 ≤ roundTo1 q ∧ roundTo1 q ≤ 100 := by
  unfold roundTo1
  have hr : round (10 * q) = ⌊10 * q + 1 / 2⌋ := round_eq (10 * q)
  have hlo : (0 : ℤ) ≤ round (10 * q) := by
    rw [hr]
    refine Int.le_floor.mpr ?_
    push_cast
    linarith
  have hhi : round (10 * q) ≤ 1000 := by
    rw [hr]
    have h1 : (10 * q + 1 / 2 : ℚ) < 1001 := by linarith
    have h2 : ⌊(10 * q + 1 / 2 : ℚ)⌋ < 1001 := Int.floor_lt.mpr (by push_cast; linarith)
    omega
  constructor
  · have : (0 : ℚ) ≤ ((round (10 * q) : ℤ) : ℚ) := by exact_mod_cast hlo
    linarith
  · have : ((round (10 * q) : ℤ) : ℚ) ≤ 1000 := by exact_mod_cast hhi
    linarith

/-- One guarded share: equal to its claim form, and within [0, c]. -/
lemma guardTerm_eq_and_bounds (c num den : ℚ) (hc : 0 < c) (h0 : 0 ≤ num)
    (hle : num ≤ den) :
    (if 0 < den then c * (num / den) else 0)
        = (if den = 0 then 0 else c * (num / den))
      ∧ 0 ≤ (if 0 < den then c * (num / den) else 0)
      ∧ (if 0 < den then c * (num / den) else 0) ≤ c := by
  by_cases hden : den = 0
  · rw [hden]
    norm_num
    exact le_of_lt hc
  · have hpos : 0 < den := lt_of_le_of_ne (le_trans h0 hle) (Ne.symm hden)
    have hdiv1 : num / den ≤ 1 := (div_le_one hpos).mpr hle
    have hdiv0 : 0 ≤ num / den := div_nonneg h0 (le_of_lt hpos)
    rw [if_pos hpos, if_neg hden]
    refine ⟨rfl, by positivity, ?_⟩
    calc c * (num / den) ≤ c * 1 := by
          exact mul_le_mul_of_nonneg_left hdiv1 (le_of_lt hc)
      _ = c := mul_one c

/-- The unrounded score agrees with the claim formula and is in [0, 100]
when estimates are non-negative and ids distinct. -/
lemma value_score_raw_eq_and_bounds (r : PlanRequest) (tid : String)
    (hnd : (taskIds r).Nodup)
    (hest : ∀ t ∈ r.tasks, 0 ≤ t.estimateHours) :
    value_score_raw r tid = claimValueFormula r tid
      ∧ 0 ≤ value_score_raw r tid ∧ value_score_raw r tid ≤ 100 := by
  have htot : 0 ≤ totalHours r := by
    unfold totalHours
    refine List.sum_nonneg ?_
    intro x hx
    obtain ⟨t, ht, rfl⟩ := List.mem_map.mp hx
    exact hest t ht
  have hcard : (transitiveBlockers r tid).card ≤ r.tasks.length := by
    calc (transitiveBlockers r tid).card
        ≤ ((taskIds r).toFinset).card := Finset.card_le_card (transitiveBlockers_subset r tid)
      _ ≤ (taskIds r).length := List.toFinset_card_le _
      _ = r.tasks.length := List.length_map _ _
  have hbh0 : 0 ≤ blockedHours r (transitiveBlockers r tid) :=
    blockedHours_nonneg r _ hest
  have hbh1 : blockedHours r (transitiveBlockers r tid) ≤ totalHours r :=
    blockedHours_le r hnd hest _ (transitiveBlockers_subset r tid)
  have hbg : (blocked_goals r tid (transitiveBlockers r tid)).card ≤ r.goals.length :=
    blocked_goals_card_le r tid _
  have g1 := guardTerm_eq_and_bounds 40 ((transitiveBlockers r tid).card : ℚ)
    (r.tasks.length : ℚ) (by norm_num) (by positivity) (by exact_mod_cast hcard)
  have g2 := guardTerm_eq_and_bounds 40
    ((blockedHours r (transitiveBlockers r tid) : Int) : ℚ) ((totalHours r : Int) : ℚ)
    (by norm_num) (by exact_mod_cast hbh0) (by exact_mod_cast hbh1)
  have g3 := guardTerm_eq_and_bounds 20
    ((blocked_goals r tid (transitiveBlockers r tid)).card : ℚ)
    (r.goals.length : ℚ) (by norm_num) (by positivity) (by exact_mod_cast hbg)
  unfold value_score_raw claimValueFormula
  refine ⟨by rw [g1.1, g2.1, g3.1], by linarith [g1.2.1, g2.2.1, g3.2.1],
    by linarith [g1.2.2, g2.2.2, g3.2.2]⟩

/-- C5.  The composite value score is the claim formula — 40 parts
transitive-blocker share, 40 parts blocked-hour share, 20 parts
blocked-goal share, a zero denominator contributing zero — rounded to
one decimal, and it lies in [0, 100].  Hypotheses: task ids are unique
and estimates non-negative (the data model of the spec). -/
theorem C5_value_score (r : PlanRequest) (tid : String)
    (hnd : (taskIds r).Nodup)
    (hest : ∀ t ∈ r.tasks, 0 ≤ t.estimateHours) :
    value_score r tid = roundTo1 (claimValueFormula r tid)
      ∧ 0 ≤ value_score r tid ∧ value_score r tid ≤ 100 := by
  obtain ⟨heq, h0, h100⟩ := value_score_raw_eq_and_bounds r tid hnd hest
  have hb := roundTo1_bounds (value_score_raw r tid) h0 h100
  exact ⟨by rw [value_score, heq], hb.1, hb.2⟩

/-- C5 (witness): the statement at the one-task request `rGoal`. -/
theorem C5_witness :
    value_score rGoal "T0" = roundTo1 (claimValueFormula rGoal "T0")
      ∧ 0 ≤ value_score rGoal "T0" ∧ value_score rGoal "T0" ≤ 100 :=
  C5_value_score rGoal "T0" (by decide) (by decide)

/-! ### Matcher confidence (C10) -/

/-- The per-solver lookup in computed stats is the mean of that solver
ratio list. -/
lemma lookupRatio_calibration (cs : List TaskCompletion) (s : String)
    (hne : cs.isEmpty = false) :
    lookupRatio (calculate_calibration cs).bySolver s
      = (if solverRatios cs s = [] then none
         else some ((solverRatios cs s).sum / ((solverRatios cs s).length : ℚ))) := by
  have hstats : (calculate_calibration cs).bySolver
      = (bySolverLists cs).map (fun p => (p.1, p.2.sum / (p.2.length : ℚ))) := by
    simp [calculate_calibration, hne]
  rw [hstats]
  have hfold : lookupList (bySolverLists cs) s
      = (if solverRatios cs s = [] then none else some (solverRatios cs s)) := by
    have h0 := lookupList_fold s cs []
    by_cases hsr : solverRatios cs s = [] <;>
      simpa [lookupList, hsr] using h0
  have hlook := lookupRatio_stats cs s
  rw [hfold] at hlook
  by_cases hsr : solverRatios cs s = []
  · rw [if_pos hsr] at hlook ⊢
    simpa using hlook
  · rw [if_neg hsr] at hlook ⊢
    simpa using hlook

/-- Each per-solver ratio is non-negative when actual hours are. -/
lemma solverRatios_nonneg (cs : List TaskCompletion) (s : String)
    (hact : ∀ c ∈ cs, 0 ≤ c.actualHours) :
    ∀ x ∈ solverRatios cs s, 0 ≤ x := by
  intro x hx
  unfold solverRatios ratios at hx
  obtain ⟨c, hc, rfl⟩ := List.mem_map.mp hx
  have hcpos : 0 < c.estimatedHours := by
    have := List.of_mem_filter hc
    simpa using this
  have hcs : c ∈ cs := List.mem_of_mem_filter (List.mem_of_mem_filter hc)
  exact div_nonneg (hact c hcs) (le_of_lt hcpos)

/-- The historical-success score always lies in [0.3, 1] when actual
hours are non-negative. -/
lemma histScoreOfRatio_bounds (ratio : ℚ) (h0 : 0 ≤ ratio) :
    3/10 ≤ histScoreOfRatio ratio ∧ histScoreOfRatio ratio ≤ 1 := by
  unfold histScoreOfRatio
  by_cases hr1 : ratio ≤ 1
  · rw [if_pos hr1]
    constructor <;> nlinarith
  · rw [if_neg hr1]
    have hgt : 1 < ratio := lt_of_not_le hr1
    constructor
    · exact le_max_left _ _
    · exact max_le (by norm_num) (by nlinarith)

/-- The historical-success score always lies in [0.3, 1] when actual
hours are non-negative. -/
lemma get_historical_success_bounds (cs : List TaskCompletion) (s : String)
    (hact : ∀ c ∈ cs, 0 ≤ c.actualHours) :
    3/10 ≤ get_historical_success cs s ∧ get_historical_success cs s ≤ 1 := by
  unfold get_historical_success
  by_cases hlen : cs.length < 3
  · rw [if_pos hlen]
    norm_num
  · rw [if_neg hlen]
    have hne : cs.isEmpty = false := by
      cases cs with
      | nil => simp at hlen
      | cons a l => simp
    rw [lookupRatio_calibration cs s hne]
    by_cases hsr : solverRatios cs s = []
    · rw [if_pos hsr]
      norm_num
    · rw [if_neg hsr]
      simp only [Option.map_some', Option.getD_some]
      have hsum0 : 0 ≤ (solverRatios cs s).sum :=
        List.sum_nonneg (solverRatios_nonneg cs s hact)
      have hlen0 : 0 < ((solverRatios cs s).length : ℚ) := by
        have : 0 < (solverRatios cs s).length := List.length_pos.mpr hsr
        exact_mod_cast this
      exact histScoreOfRatio_bounds _ (div_nonneg hsum0 (le_of_lt hlen0))

/-- A two-valued branch stays within [0, 0.4]. -/
lemma if_bool_bounds (b : Bool) :
    0 ≤ (if b then (4/10 : ℚ) else 0) ∧ (if b then (4/10 : ℚ) else 0) ≤ 4/10 := by
  cases b <;> norm_num

/-- The capability score is 0 or 0.4. -/
lemma capScore_bounds (s : SolverCapability) (t : Task) :
    0 ≤ capScore s t ∧ capScore s t ≤ 4/10 := by
  unfold capScore
  by_cases h1 : s.supportedFileTypes.isEmpty
  · rw [if_pos h1]
    norm_num
  · rw [if_neg h1]
    exact if_bool_bounds _

/-- Registry solvers carry a max complexity within [1, 10]. -/
lemma registry_maxComplexity_bounds :
    ∀ s ∈ SOLVER_REGISTRY, 1 ≤ s.maxComplexity ∧ s.maxComplexity ≤ 10 := by
  decide

/-- The complexity fit lies in [0.1, 1] for registry solvers. -/
lemma complexityFit_bounds (s : SolverCapability) (hs : s ∈ SOLVER_REGISTRY) (t : Task) :
    1/10 ≤ complexityFit s (estimate_complexity t) ∧ complexityFit s (estimate_complexity t) ≤ 1 := by
  have h1 := estimate_complexity_bounds t
  have h2 := registry_maxComplexity_bounds s hs
  have habs : (s.maxComplexity - estimate_complexity t).natAbs ≤ 9 := by omega
  have habsq : ((s.maxComplexity - estimate_complexity t).natAbs : ℚ) ≤ 9 := by
    exact_mod_cast habs
  have habs0 : (0 : ℚ) ≤ ((s.maxComplexity - estimate_complexity t).natAbs : ℚ) := by
    positivity
  unfold complexityFit
  constructor <;> [linarith; linarith]

/-- The weighted total of the scoring branch lies in [0, 1]. -/
lemma totalScore_bounds (s : SolverCapability) (hs : s ∈ SOLVER_REGISTRY) (t : Task)
    (cs : List TaskCompletion) (hact : ∀ c ∈ cs, 0 ≤ c.actualHours) :
    0 ≤ totalScore s t cs ∧ totalScore s t cs ≤ 1 := by
  have h1 := capScore_bounds s t
  have h2 := get_historical_success_bounds cs s.name hact
  have h3 := complexityFit_bounds s hs t
  unfold totalScore
  constructor <;> nlinarith [h1.1, h1.2, h2.1, h2.2, h3.1, h3.2]

/-- The stable-sort head keeps any property all scored pairs share. -/
lemma bestScored_prop (P : SolverCapability × ℚ → Prop) :
    ∀ (xs : List (SolverCapability × ℚ)) (x : SolverCapability × ℚ),
      P x → (∀ y ∈ xs, P y) → P (bestScored x xs)
  | [], x, hx, _ => hx
  | y :: ys, x, hx, hall => by
    rw [bestScored, List.foldl_cons]
    have hnext : P (if x.2 < y.2 then y else x) := by
      split_ifs
      · exact hall y (List.mem_cons_self y ys)
      · exact hx
    have htail : ∀ z ∈ ys, P z := fun z hz => hall z (List.mem_cons_of_mem y hz)
    exact bestScored_prop P ys _ hnext htail

/-- C10.  Every branch of `match_solver` yields a confidence in [0, 1]:
the explicit-tag branch 1, the regex branch 0.9, the fallback 0.3, and
the capability branch a weighted total 0.3·cap + 0.4·history +
0.3·complexity-fit with cap in [0, 0.4], history in [0.3, 1] and fit in
[0.1, 1].  The only hypothesis is that logged actual hours are
non-negative (time spent cannot be negative). -/
theorem C10_confidence_in_unit_interval (t : Task) (issue : Issue)
    (cs : List TaskCompletion) (view : RateLimitView) (nowMs : Int)
    (rm : String → String → Bool) (req : Bool)
    (hact : ∀ c ∈ cs, 0 ≤ c.actualHours) :
    0 ≤ (match_solver t issue cs view nowMs rm req).confidence
      ∧ (match_solver t issue cs view nowMs rm req).confidence ≤ 1 := by
  unfold match_solver
  cases h1 : (extract_tags issue).find?
      (fun tg => decide (tg ∈ solverNames) && (!req || check_availability tg view nowMs)) with
  | some tg =>
    simp only [h1]
    norm_num
  | none =>
    simp only [h1]
    cases h2 : SOLVER_REGISTRY.find?
        (fun s => rm s.name t.summary && (!req || check_availability s.name view nowMs)) with
    | some s2 =>
      simp only [h2]
      norm_num
    | none =>
      simp only [h2]
      split
      · norm_num
      · rename_i x xs heq
        have hall : ∀ y ∈ x :: xs, 0 ≤ y.2 ∧ y.2 ≤ 1 := by
          intro y hy
          rw [← heq] at hy
          obtain ⟨s2, hs2, rfl⟩ := List.mem_map.mp hy
          have hreg : s2 ∈ SOLVER_REGISTRY := by
            by_cases hreq : req = true
            · rw [if_pos hreq] at hs2
              exact List.mem_of_mem_filter (List.mem_of_mem_filter hs2)
            · rw [if_neg hreq] at hs2
              exact List.mem_of_mem_filter hs2
          exact totalScore_bounds s2 hreg t cs hact
        exact bestScored_prop (fun y => 0 ≤ y.2 ∧ y.2 ≤ 1) xs x
          (hall x (List.mem_cons_self x xs))
          (fun y hy => hall y (List.mem_cons_of_mem x hy))

/-- C10 (witness): the bounds at a concrete task with empty history and
an unreachable view. -/
theorem C10_witness :
    0 ≤ (match_solver (mkTask "w" [] []) ⟨[], ""⟩ [] none 0 (fun _ _ => false) true).confidence
      ∧ (match_solver (mkTask "w" [] []) ⟨[], ""⟩ [] none 0 (fun _ _ => false) true).confidence ≤ 1 :=
  C10_confidence_in_unit_interval (mkTask "w" [] []) ⟨[], ""⟩ [] none 0 (fun _ _ => false) true
    (by intro c hc; simp at hc)

/-! ### Kahn-loop refinement (C2, C6) -/

/-- The char comparison never holds reflexively. -/
lemma charListLt_irrefl : ∀ (a : List Char), charListLt a a = false
  | [] => rfl
  | c :: cs => by
    unfold charListLt
    rw [if_neg (lt_irrefl c.toNat), if_neg (lt_irrefl c.toNat)]
    exact charListLt_irrefl cs

/-- Two char lists with neither below the other are equal. -/
lemma charListLt_antisymm :
    ∀ (a b : List Char), charListLt a b = false → charListLt b a = false → a = b
  | [], [], _, _ => rfl
  | [], _ :: _, h1, _ => by simp [charListLt] at h1
  | _ :: _, [], _, h2 => by simp [charListLt] at h2
  | a :: as, b :: bs, h1, h2 => by
    unfold charListLt at h1 h2
    by_cases hab : a.toNat < b.toNat
    · rw [if_pos hab] at h1
      exact absurd h1 (by simp)
    · by_cases hba : b.toNat < a.toNat
      · rw [if_pos hba] at h2
        exact absurd h2 (by simp)
      · rw [if_neg hab, if_neg hba] at h1
        rw [if_neg hba, if_neg hab] at h2
        have hc : a = b :=
          Char.ext (UInt32.toNat.inj (Nat.le_antisymm (Nat.le_of_not_lt hba) (Nat.le_of_not_lt hab)))
        rw [hc, charListLt_antisymm as bs h1 h2]

/-- The char comparison is transitive. -/
lemma charListLt_trans :
    ∀ (a b c : List Char), charListLt a b = true → charListLt b c = true → charListLt a c = true
  | [], [], _, h1, _ => by simp [charListLt] at h1
  | [], _ :: _, [], _, h2 => by simp [charListLt] at h2
  | [], _ :: _, _ :: _, _, _ => by simp [charListLt]
  | _ :: _, [], _, h1, _ => by simp [charListLt] at h1
  | _ :: _, _ :: _, [], _, h2 => by simp [charListLt] at h2
  | x :: as, y :: bs, z :: cs, h1, h2 => by
    unfold charListLt at h1 h2 ⊢
    by_cases hxy : x.toNat < y.toNat
    · by_cases hyz : y.toNat < z.toNat
      · have hxz : x.toNat < z.toNat := Nat.lt_trans hxy hyz
        simp [hxz]
      · by_cases hzy : z.toNat < y.toNat
        · simp [hyz, hzy] at h2
        · have hxz : x.toNat < z.toNat := by omega
          simp [hxz]
    · by_cases hyx : y.toNat < x.toNat
      · simp [hxy, hyx] at h1
      · simp only [hxy, hyx, if_false] at h1
        by_cases hyz : y.toNat < z.toNat
        · have hxz : x.toNat < z.toNat := by omega
          simp [hxz]
        · by_cases hzy : z.toNat < y.toNat
          · simp [hyz, hzy] at h2
          · simp only [hyz, hzy, if_false] at h2
            have hxz : ¬ x.toNat < z.toNat := by omega
            have hzx : ¬ z.toNat < x.toNat := by omega
            simp only [hxz, hzx, if_false]
            exact charListLt_trans as bs cs h1 h2

/-- The heap-key comparison never holds reflexively. -/
lemma keyLtB_irrefl (k : Int × String) : keyLtB k k = false := by
  unfold keyLtB strLt
  rw [if_neg (lt_irrefl k.1), if_pos rfl]
  exact charListLt_irrefl k.2.data

/-- Two keys with neither below the other are equal. -/
lemma keyLtB_antisymm (a b : Int × String)
    (h1 : keyLtB a b = false) (h2 : keyLtB b a = false) : a = b := by
  unfold keyLtB strLt at h1 h2
  by_cases hab : a.1 < b.1
  · rw [if_pos hab] at h1
    exact absurd h1 (by simp)
  · by_cases hba : b.1 < a.1
    · rw [if_pos hba] at h2
      exact absurd h2 (by simp)
    · have he : a.1 = b.1 := le_antisymm (le_of_not_lt hba) (le_of_not_lt hab)
      rw [if_neg hab, if_pos he] at h1
      rw [if_neg hba, if_pos he.symm] at h2
      have hs : a.2 = b.2 := String.ext (charListLt_antisymm _ _ h1 h2)
      exact Prod.ext he hs

/-- The key comparison is transitive. -/
lemma keyLtB_trans (a b c : Int × String)
    (h1 : keyLtB a b = true) (h2 : keyLtB b c = true) : keyLtB a c = true := by
  unfold keyLtB strLt at h1 h2 ⊢
  by_cases hab : a.1 < b.1
  · by_cases hbc : b.1 < c.1
    · rw [if_pos (lt_trans hab hbc)]
    · by_cases hbc2 : b.1 = c.1
      · rw [if_pos (hbc2 ▸ hab)]
      · rw [if_neg hbc, if_neg hbc2] at h2
        exact absurd h2 (by simp)
  · by_cases hab2 : a.1 = b.1
    · rw [if_neg hab, if_pos hab2] at h1
      by_cases hbc : b.1 < c.1
      · rw [if_pos (hab2 ▸ hbc)]
      · by_cases hbc2 : b.1 = c.1
        · rw [if_neg hbc, if_pos hbc2] at h2
          have hac : a.1 = c.1 := hab2.trans hbc2
          have hnlt : ¬ a.1 < c.1 := by rw [hac]; exact lt_irrefl c.1
          rw [if_neg hnlt, if_pos hac]
          exact charListLt_trans _ _ _ h1 h2
        · rw [if_neg hbc, if_neg hbc2] at h2
          exact absurd h2 (by simp)
    · rw [if_neg hab, if_neg hab2] at h1
      exact absurd h1 (by simp)

/-- A false comparison means equal or strictly above. -/
lemma keyLtB_false_iff (a b : Int × String) :
    keyLtB a b = false ↔ (a = b ∨ keyLtB b a = true) := by
  constructor
  · intro h
    cases hba : keyLtB b a with
    | true => exact Or.inr rfl
    | false => exact Or.inl (keyLtB_antisymm a b h hba)
  · rintro (rfl | h)
    · exact keyLtB_irrefl a
    · cases hab : keyLtB a b with
      | true =>
        have := keyLtB_trans a b a hab h
        rw [keyLtB_irrefl a] at this
        exact absurd this (by simp)
      | false => rfl

/-- `pickMin` returns nothing only on the empty heap. -/
lemma pickMin_eq_none (r : PlanRequest) :
    ∀ (l : List String), pickMin r l = none ↔ l = []
  | [] => by simp [pickMin]
  | i :: rest => by simp [pickMin]

/-- `pickMin` returns a member of the heap. -/
lemma pickMin_mem (r : PlanRequest) :
    ∀ (l : List String) (i : String), pickMin r l = some i → i ∈ l
  | [], i, h => by simp [pickMin] at h
  | a :: rest, i, h => by
    rw [pickMin] at h
    injection h with h
    cases hr : pickMin r rest with
    | none =>
      rw [hr, Option.elim_none] at h
      exact h ▸ List.mem_cons_self a rest
    | some j =>
      rw [hr, Option.elim_some] at h
      split_ifs at h
      · exact List.mem_cons_of_mem a (h ▸ pickMin_mem r rest j hr)
      · exact h ▸ List.mem_cons_self a rest

/-- Nothing in the heap compares strictly below the popped element. -/
lemma pickMin_not_lt (r : PlanRequest) :
    ∀ (l : List String) (i : String), pickMin r l = some i →
      ∀ j ∈ l, keyLtB (taskKey r j) (taskKey r i) = false
  | [], i, h, j, hj => by simp at hj
  | a :: rest, i, h, j, hj => by
    rw [pickMin] at h
    injection h with h
    cases hr : pickMin r rest with
    | none =>
      have hrest : rest = [] := (pickMin_eq_none r rest).mp hr
      subst hrest
      rw [hr, Option.elim_none] at h
      have hja : j = a := by simpa using hj
      subst hja
      rw [h]
      exact keyLtB_irrefl _
    | some m =>
      rw [hr, Option.elim_some] at h
      split_ifs at h with hk
      · rw [← h]
        rcases List.mem_cons.mp hj with rfl | hj2
        · cases hja : keyLtB (taskKey r j) (taskKey r m) with
          | false => rfl
          | true =>
            have h2 := keyLtB_trans _ _ _ hja hk
            rw [keyLtB_irrefl] at h2
            exact absurd h2 (by simp)
        · exact pickMin_not_lt r rest m hr j hj2
      · rw [← h]
        rcases List.mem_cons.mp hj with rfl | hj2
        · exact keyLtB_irrefl _
        · have hjm : keyLtB (taskKey r j) (taskKey r m) = false :=
            pickMin_not_lt r rest m hr j hj2
          have hma : keyLtB (taskKey r m) (taskKey r a) = false := by
            cases hx : keyLtB (taskKey r m) (taskKey r a) with
            | false => rfl
            | true => exact absurd hx hk
          rcases (keyLtB_false_iff _ _).mp hjm with he | hlt
          · rw [he]
            exact hma
          · rcases (keyLtB_false_iff _ _).mp hma with he2 | hlt2
            · rw [← he2]
              exact hjm
            · rw [keyLtB_false_iff]
              right
              exact keyLtB_trans _ _ _ hlt2 hlt

/-- Two heaps with the same members pop the same element. -/
lemma pickMin_congr (r : PlanRequest) (l1 l2 : List String)
    (h : ∀ x, x ∈ l1 ↔ x ∈ l2) : pickMin r l1 = pickMin r l2 := by
  cases h1 : pickMin r l1 with
  | none =>
    have : l1 = [] := (pickMin_eq_none r l1).mp h1
    subst this
    have : l2 = [] := List.eq_nil_iff_forall_not_mem.mpr (fun x hx => by
      have h2 := (h x).mpr hx
      simp at h2)
    subst this
    simp [pickMin]
  | some i =>
    cases h2 : pickMin r l2 with
    | none =>
      have : l2 = [] := (pickMin_eq_none r l2).mp h2
      subst this
      have hmem := pickMin_mem r l1 i h1
      rw [h i] at hmem
      simp at hmem
    | some j =>
      have hi2 : i ∈ l2 := (h i).mp (pickMin_mem r l1 i h1)
      have hj1 : j ∈ l1 := (h j).mpr (pickMin_mem r l2 j h2)
      have hij : keyLtB (taskKey r j) (taskKey r i) = false := pickMin_not_lt r l1 i h1 j hj1
      have hji : keyLtB (taskKey r i) (taskKey r j) = false := pickMin_not_lt r l2 j h2 i hi2
      have := keyLtB_antisymm _ _ hji hij
      have : i = j := congrArg Prod.snd this
      rw [this]

/-- The degree table after one relax step. -/
lemma relaxStep_snd (r : PlanRequest) (i : String) (st : List String × (String → Int))
    (o : String) :
    (relaxStep r i st o).2 = if i ∈ depsOf r o then decAt st.2 o else st.2 := by
  simp only [relaxStep]
  by_cases h1 : i ∈ depsOf r o
  · rw [if_pos h1, if_pos h1]
    by_cases h2 : decAt st.2 o o = 0
    · rw [if_pos h2]
    · rw [if_neg h2]
  · rw [if_neg h1, if_neg h1]

/-- The heap after one relax step. -/
lemma relaxStep_fst (r : PlanRequest) (i : String) (st : List String × (String → Int))
    (o : String) :
    (relaxStep r i st o).1
      = if i ∈ depsOf r o ∧ st.2 o = 1 then st.1 ++ [o] else st.1 := by
  have hd : decAt st.2 o o = st.2 o - 1 := by
    unfold decAt
    rw [if_pos rfl]
  simp only [relaxStep]
  by_cases h1 : i ∈ depsOf r o
  · rw [if_pos h1]
    by_cases h2 : st.2 o = 1
    · have hz : decAt st.2 o o = 0 := by omega
      rw [if_pos hz, if_pos ⟨h1, h2⟩]
    · have hz : ¬ decAt st.2 o o = 0 := by omega
      rw [if_neg hz, if_neg (fun hc => h2 hc.2)]
  · rw [if_neg h1, if_neg (fun hc => h1 hc.1)]

/-- The degree table after the relax fold: processed dependants of `i`
drop by one. -/
lemma relaxFold_snd (r : PlanRequest) (i : String) :
    ∀ (l : List String), l.Nodup → ∀ (heap : List String) (deg : String → Int) (o : String),
      (l.foldl (relaxStep r i) (heap, deg)).2 o
        = if o ∈ l ∧ i ∈ depsOf r o then deg o - 1 else deg o
  | [], _, heap, deg, o => by simp
  | a :: l, hnd, heap, deg, o => by
    rw [List.nodup_cons] at hnd
    rw [List.foldl_cons]
    have hst : relaxStep r i (heap, deg) a
        = ((relaxStep r i (heap, deg) a).1,
           if i ∈ depsOf r a then decAt deg a else deg) := by
      rw [← relaxStep_snd r i (heap, deg) a]
    rw [hst, relaxFold_snd r i l hnd.2]
    by_cases hoa : o = a
    · subst hoa
      rw [if_neg (fun hc => hnd.1 hc.1)]
      by_cases hdep : i ∈ depsOf r o
      · rw [if_pos hdep, if_pos ⟨List.mem_cons_self o l, hdep⟩]
        unfold decAt
        rw [if_pos rfl]
      · rw [if_neg hdep, if_neg (fun hc => hdep hc.2)]
    · have hd2 : (if i ∈ depsOf r a then decAt deg a else deg) o = deg o := by
        split_ifs with h1
        · unfold decAt
          rw [if_neg hoa]
        · rfl
      rw [hd2]
      by_cases hol : o ∈ l ∧ i ∈ depsOf r o
      · rw [if_pos hol, if_pos ⟨List.mem_cons_of_mem a hol.1, hol.2⟩]
      · rw [if_neg hol]
        rw [if_neg (fun hc => hol ⟨(List.mem_cons.mp hc.1).resolve_left hoa, hc.2⟩)]

/-- The heap after the relax fold: the newly freed dependants are
appended in scan order. -/
lemma relaxFold_fst (r : PlanRequest) (i : String) :
    ∀ (l : List String), l.Nodup → ∀ (heap : List String) (deg : String → Int),
      (l.foldl (relaxStep r i) (heap, deg)).1
        = heap ++ l.filter (fun o => decide (i ∈ depsOf r o) && decide (deg o = 1))
  | [], _, heap, deg => by simp
  | a :: l, hnd, heap, deg => by
    rw [List.nodup_cons] at hnd
    rw [List.foldl_cons]
    have hst : relaxStep r i (heap, deg) a
        = ((if i ∈ depsOf r a ∧ deg a = 1 then heap ++ [a] else heap),
           if i ∈ depsOf r a then decAt deg a else deg) := by
      rw [← relaxStep_snd r i (heap, deg) a, ← relaxStep_fst r i (heap, deg) a]
    rw [hst, relaxFold_fst r i l hnd.2]
    have hfc : l.filter (fun o => decide (i ∈ depsOf r o)
          && decide ((if i ∈ depsOf r a then decAt deg a else deg) o = 1))
        = l.filter (fun o => decide (i ∈ depsOf r o) && decide (deg o = 1)) := by
      refine List.filter_congr ?_
      intro o ho
      have hoa : o ≠ a := fun hc => hnd.1 (hc ▸ ho)
      have : (if i ∈ depsOf r a then decAt deg a else deg) o = deg o := by
        split_ifs with h1
        · unfold decAt
          rw [if_neg hoa]
        · rfl
      rw [this]
    rw [hfc]
    by_cases hcond : i ∈ depsOf r a ∧ deg a = 1
    · rw [if_pos hcond, List.filter_cons_of_pos (by simp [hcond.1, hcond.2]),
        List.append_assoc]
      rfl
    · have hneg : ¬ (decide (i ∈ depsOf r a) && decide (deg a = 1)) = true := by
        simp only [Bool.and_eq_true, decide_eq_true_eq, not_and]
        intro h1 h2
        exact hcond ⟨h1, h2⟩
      rw [if_neg hcond,
        @List.filter_cons_of_neg String (fun o => decide (i ∈ depsOf r o) && decide (deg o = 1)) a l hneg]

/-- Removing one unmet prerequisite drops the unmet count by exactly
one. -/
lemma filter_notmem_cons_length (i : String) (res : List String) (hi : i ∉ res) :
    ∀ (l : List String), l.Nodup →
      (l.filter (fun d => decide (d ∉ res))).length
        = (l.filter (fun d => decide (d ∉ i :: res))).length + (if i ∈ l then 1 else 0)
  | [], _ => by simp
  | a :: l, hnd => by
    rw [List.nodup_cons] at hnd
    by_cases hai : a = i
    · subst hai
      rw [List.filter_cons_of_pos (by simpa using hi),
        List.filter_cons_of_neg (by simp),
        if_pos (List.mem_cons_self a l)]
      have hfc : l.filter (fun d => decide (d ∉ a :: res))
          = l.filter (fun d => decide (d ∉ res)) := by
        refine List.filter_congr ?_
        intro d hd
        have : d ≠ a := fun hc => hnd.1 (hc ▸ hd)
        simp [this]
      rw [hfc, List.length_cons]
    · have hsame : (decide (a ∉ i :: res)) = (decide (a ∉ res)) := by
        simp [List.mem_cons, hai]
      have hil : (if i ∈ a :: l then 1 else 0) = (if i ∈ l then 1 else 0) := by
        by_cases h : i ∈ l
        · rw [if_pos h, if_pos (List.mem_cons_of_mem a h)]
        · rw [if_neg h, if_neg ?_]
          intro hc
          rcases List.mem_cons.mp hc with hc | hc
          · exact hai hc.symm
          · exact h hc
      by_cases ha : a ∈ res
      · rw [List.filter_cons_of_neg (by simpa using ha),
          List.filter_cons_of_neg (by rw [hsame]; simpa using ha), hil]
        exact filter_notmem_cons_length i res hi l hnd.2
      · rw [List.filter_cons_of_pos (by simpa using ha),
          List.filter_cons_of_pos (by rw [hsame]; simpa using ha), hil]
        simp only [List.length_cons]
        have := filter_notmem_cons_length i res hi l hnd.2
        omega

/-- Every emitted id has all its prerequisites emitted. -/
lemma chainOk_closed (r : PlanRequest) :
    ∀ (l : List String), ChainOk r l → ∀ o ∈ l, ∀ d ∈ depsOf r o, d ∈ l
  | [], _, o, ho, _, _ => absurd ho (by simp)
  | j :: rest, h, o, ho, d, hd => by
    rcases List.mem_cons.mp ho with rfl | ho2
    · exact List.mem_cons_of_mem _ (h.1 d hd)
    · exact List.mem_cons_of_mem _ (chainOk_closed r rest h.2 o ho2 d hd)

/-- Dependency chains never leave an emission-closed list. -/
lemma chainOk_reach (r : PlanRequest) :
    ∀ (l : List String), ChainOk r l → ∀ t ∈ l, ∀ u, Relation.ReflTransGen (edge r) t u → u ∈ l
  | [], _, t, ht, _, _ => absurd ht (by simp)
  | j :: rest, h, t, ht, u, hreach => by
    rcases List.mem_cons.mp ht with rfl | ht2
    · rcases Relation.ReflTransGen.cases_head hreach with rfl | ⟨d, hd, hreach2⟩
      · exact List.mem_cons_self _ rest
      · exact List.mem_cons_of_mem _ (chainOk_reach r rest h.2 d (h.1 d hd) u hreach2)
    · exact List.mem_cons_of_mem _ (chainOk_reach r rest h.2 t ht2 u hreach)

/-- No member of an emission-closed duplicate-free list lies on a
dependency cycle. -/
lemma chainOk_no_cycle (r : PlanRequest) :
    ∀ (l : List String), ChainOk r l → l.Nodup → ∀ t ∈ l, ¬ Relation.TransGen (edge r) t t
  | [], _, _, t, ht => absurd ht (by simp)
  | j :: rest, h, hnd, t, ht => by
    rw [List.nodup_cons] at hnd
    rcases List.mem_cons.mp ht with rfl | ht2
    · intro hcyc
      obtain ⟨d, hd, hreach⟩ := (Relation.TransGen.head'_iff).mp hcyc
      have : t ∈ rest := chainOk_reach r rest h.2 d (h.1 d hd) t hreach
      exact hnd.1 this
    · exact chainOk_no_cycle r rest h.2 hnd.2 t ht2

/-- The dependency sets are duplicate-free. -/
lemma depsOf_nodup (r : PlanRequest) (o : String) : (depsOf r o).Nodup := by
  unfold depsOf
  cases taskById r o with
  | none => exact List.nodup_nil
  | some t => exact List.nodup_dedup _

/-- A non-empty duplicate-free list whose members all equal `i` is `[i]`. -/
lemma nodup_all_eq {l : List String} {i : String} (hnd : l.Nodup)
    (hall : ∀ d ∈ l, d = i) (hmem : i ∈ l) : l = [i] := by
  cases l with
  | nil => simp at hmem
  | cons a rest =>
    have ha : a = i := hall a (List.mem_cons_self a rest)
    subst ha
    rw [List.nodup_cons] at hnd
    cases rest with
    | nil => rfl
    | cons b rest2 =>
      have hb : b = a := hall b (by simp)
      exact absurd (by rw [hb]; exact List.mem_cons_self a rest2) hnd.1

/-- Loop invariant of the Kahn loop: the result list is a duplicate-free
dependency-respecting emission, the degree table counts unmet
prerequisites, and the heap holds exactly the ready unemitted ids. -/
structure KInv (r : PlanRequest) (heap : List String) (deg : String → Int)
    (res : List String) : Prop where
  res_nodup : res.Nodup
  res_sub : ∀ x ∈ res, x ∈ taskIds r
  chain : ChainOk r res
  deg_eq : ∀ o ∈ taskIds r,
    deg o = (((depsOf r o).filter (fun d => decide (d ∉ res))).length : Int)
  heap_mem : ∀ x, x ∈ heap ↔ (x ∈ taskIds r ∧ x ∉ res ∧ ∀ d ∈ depsOf r x, d ∈ res)
  heap_nodup : heap.Nodup

/-- Popping a ready id preserves the invariant across the relax scan. -/
lemma KInv_step (r : PlanRequest) (hnd : (taskIds r).Nodup)
    (heap : List String) (deg : String → Int) (res : List String)
    (inv : KInv r heap deg res) (i : String) (hi : i ∈ heap) :
    KInv r (kahnRelax r i (heap.erase i, deg)).1 (kahnRelax r i (heap.erase i, deg)).2
      (i :: res) := by
  obtain ⟨hid, hires, hideps⟩ := (inv.heap_mem i).mp hi
  have hfst : (kahnRelax r i (heap.erase i, deg)).1
      = (heap.erase i)
        ++ (taskIds r).filter (fun o => decide (i ∈ depsOf r o) && decide (deg o = 1)) :=
    relaxFold_fst r i (taskIds r) hnd (heap.erase i) deg
  have hsnd : ∀ o, (kahnRelax r i (heap.erase i, deg)).2 o
      = if o ∈ taskIds r ∧ i ∈ depsOf r o then deg o - 1 else deg o :=
    relaxFold_snd r i (taskIds r) hnd (heap.erase i) deg
  -- an emitted id never has i among its unmet prerequisites
  have hres_deps : ∀ x ∈ res, i ∉ depsOf r x := by
    intro x hx hc
    exact hires (chainOk_closed r res inv.chain x hx i hc)
  -- members of the heap never list i as a prerequisite
  have hheap_deps : ∀ x ∈ heap, i ∉ depsOf r x := by
    intro x hx hc
    exact hires (((inv.heap_mem x).mp hx).2.2 i hc)
  refine ⟨List.nodup_cons.mpr ⟨hires, inv.res_nodup⟩, ?_, ?_, ?_, ?_, ?_⟩
  · intro x hx
    rcases List.mem_cons.mp hx with rfl | hx2
    · exact hid
    · exact inv.res_sub x hx2
  · exact ⟨hideps, inv.chain⟩
  · -- degree table
    intro o ho
    rw [hsnd o]
    have hcount := filter_notmem_cons_length i res hires (depsOf r o) (depsOf_nodup r o)
    by_cases hdep : i ∈ depsOf r o
    · rw [if_pos hdep] at hcount
      rw [if_pos (And.intro ho hdep), inv.deg_eq o ho]
      omega
    · have hnc : ¬(o ∈ taskIds r ∧ i ∈ depsOf r o) := fun hc => hdep hc.2
      rw [if_neg hdep] at hcount
      rw [if_neg hnc, inv.deg_eq o ho]
      omega
  · -- heap membership
    intro x
    rw [hfst, List.mem_append, inv.heap_nodup.mem_erase_iff, List.mem_filter]
    simp only [Bool.and_eq_true, decide_eq_true_eq]
    constructor
    · rintro (⟨hxi, hxh⟩ | ⟨hxids, hdep, hdeg⟩)
      · obtain ⟨h1, h2, h3⟩ := (inv.heap_mem x).mp hxh
        exact ⟨h1, fun hc => (List.mem_cons.mp hc).elim hxi h2,
          fun d hd => List.mem_cons_of_mem i (h3 d hd)⟩
      · -- newly freed: its unmet prerequisites were exactly {i}
        have hxres : x ∉ res := by
          intro hc
          have : ∀ d ∈ depsOf r x, d ∈ res := chainOk_closed r res inv.chain x hc
          have hz : (depsOf r x).filter (fun d => decide (d ∉ res)) = [] := by
            rw [List.filter_eq_nil]
            intro d hd
            simp [this d hd]
          have := inv.deg_eq x hxids
          rw [hz] at this
          simp at this
          omega
        have hifilter : i ∈ (depsOf r x).filter (fun d => decide (d ∉ res)) := by
          rw [List.mem_filter]
          exact ⟨hdep, by simpa using hires⟩
        have hlen1 : ((depsOf r x).filter (fun d => decide (d ∉ res))).length = 1 := by
          have := inv.deg_eq x hxids
          omega
        obtain ⟨c, hc⟩ := List.length_eq_one.mp hlen1
        have hci : c = i := by
          rw [hc] at hifilter
          exact (List.mem_singleton.mp hifilter).symm
        subst hci
        refine ⟨hxids, ?_, ?_⟩
        · intro hcmem
          rcases List.mem_cons.mp hcmem with rfl | hc2
          · exact hheap_deps x hi hdep
          · exact hxres hc2
        · intro d hd
          by_cases hdres : d ∈ res
          · exact List.mem_cons_of_mem _ hdres
          · have : d ∈ (depsOf r x).filter (fun e => decide (e ∉ res)) := by
              rw [List.mem_filter]
              exact ⟨hd, by simpa using hdres⟩
            rw [hc] at this
            have : d = c := by simpa using this
            rw [this]
            exact List.mem_cons_self c res
      -- backward direction
    · rintro ⟨hxids, hxcons, hxdeps⟩
      by_cases hdep : i ∈ depsOf r x
      · right
        refine ⟨hxids, hdep, ?_⟩
        -- unmet prerequisites of x are exactly [i]
        have hxres : x ∉ res := fun hc => hres_deps x hc hdep
        have hfilt : (depsOf r x).filter (fun d => decide (d ∉ res)) = [i] := by
          refine nodup_all_eq ((depsOf_nodup r x).filter _) ?_ ?_
          · intro d hd
            rw [List.mem_filter] at hd
            have hd2 := hxdeps d hd.1
            rcases List.mem_cons.mp hd2 with rfl | hd3
            · rfl
            · exact absurd hd3 (by simpa using hd.2)
          · rw [List.mem_filter]
            exact ⟨hdep, by simpa using hires⟩
        have := inv.deg_eq x hxids
        rw [hfilt] at this
        simp at this
        omega
      · left
        have hxres : x ∉ res := fun hc => hxcons (List.mem_cons_of_mem i hc)
        have hxne : x ≠ i := fun hc => hxcons (hc ▸ List.mem_cons_self i res)
        refine ⟨hxne, (inv.heap_mem x).mpr ⟨hxids, hxres, ?_⟩⟩
        intro d hd
        rcases List.mem_cons.mp (hxdeps d hd) with rfl | hd2
        · exact absurd hd hdep
        · exact hd2
  · -- heap nodup
    rw [hfst]
    refine List.Nodup.append (inv.heap_nodup.erase i) (hnd.filter _) ?_
    intro x hx1 hx2
    have hxh : x ∈ heap := (List.mem_of_mem_erase hx1)
    rw [List.mem_filter] at hx2
    have : i ∈ depsOf r x := by
      have := hx2.2
      simp only [Bool.and_eq_true, decide_eq_true_eq] at this
      exact this.1
    exact hheap_deps x hxh this

/-- The Kahn loop refines the selection description whenever the
invariant holds. -/
lemma kahnLoop_eq_specLoop (r : PlanRequest) (hnd : (taskIds r).Nodup) :
    ∀ (fuel : Nat) (heap : List String) (deg : String → Int) (res : List String),
      KInv r heap deg res →
      kahnLoop r fuel heap deg res = specLoop r fuel res
  | 0, heap, deg, res, _ => rfl
  | fuel + 1, heap, deg, res, inv => by
    rw [kahnLoop, specLoop]
    have hmem : ∀ x, x ∈ heap ↔ x ∈ readyList r res := by
      intro x
      rw [inv.heap_mem x]
      unfold readyList
      simp only [List.mem_filter, decide_eq_true_eq]
    rw [pickMin_congr r heap (readyList r res) hmem]
    cases hp : pickMin r (readyList r res) with
    | none => rfl
    | some i =>
      simp only [Option.elim_some]
      have hih : i ∈ heap := (hmem i).mpr (pickMin_mem r _ i hp)
      exact kahnLoop_eq_specLoop r hnd fuel _ _ (i :: res)
        (KInv_step r hnd heap deg res inv i hih)

/-- The initial Kahn state satisfies the invariant. -/
lemma KInv_init (r : PlanRequest) (hnd : (taskIds r).Nodup) :
    KInv r ((taskIds r).filter (fun i => decide ((depsOf r i).length = 0)))
      (fun i => ((depsOf r i).length : Int)) [] := by
  refine ⟨List.nodup_nil, by simp, trivial, ?_, ?_, hnd.filter _⟩
  · intro o _
    have hfe : (depsOf r o).filter (fun d => decide (d ∉ ([] : List String)))
        = depsOf r o := by
      rw [List.filter_eq_self]
      intro d _
      simp
    rw [hfe]
  · intro x
    rw [List.mem_filter]
    simp only [decide_eq_true_eq, List.length_eq_zero, List.not_mem_nil,
      not_false_iff, true_and]
    constructor
    · rintro ⟨h1, h2⟩
      refine ⟨h1, ?_⟩
      intro d hd
      rw [h2] at hd
      simp at hd
    · rintro ⟨h1, h2⟩
      refine ⟨h1, ?_⟩
      rw [List.eq_nil_iff_forall_not_mem]
      intro d hd
      have := h2 d hd
      simp at this

/-- The Kahn implementation equals its selection-rule description. -/
lemma kahn_eq_select (r : PlanRequest) (hnd : (taskIds r).Nodup) :
    topological_sort r = topoSelectSpec r := by
  unfold topological_sort topoSelectSpec
  exact kahnLoop_eq_specLoop r hnd (taskIds r).length _ _ [] (KInv_init r hnd)

/-- Whatever the selection loop returns is the reverse of a duplicate-free
dependency-respecting emission list. -/
lemma specLoop_emitted (r : PlanRequest) :
    ∀ (fuel : Nat) (emitted : List String), ChainOk r emitted → emitted.Nodup →
      ∃ em2, specLoop r fuel emitted = em2.reverse ∧ ChainOk r em2 ∧ em2.Nodup
  | 0, emitted, hc, hnd => ⟨emitted, rfl, hc, hnd⟩
  | fuel + 1, emitted, hc, hnd => by
    simp only [specLoop]
    cases hp : pickMin r (readyList r emitted) with
    | none => exact ⟨emitted, rfl, hc, hnd⟩
    | some i =>
      simp only [Option.elim_some]
      have hmem := pickMin_mem r _ i hp
      unfold readyList at hmem
      rw [List.mem_filter] at hmem
      simp only [decide_eq_true_eq] at hmem
      exact specLoop_emitted r fuel (i :: emitted)
        ⟨hmem.2.2, hc⟩ (List.nodup_cons.mpr ⟨hmem.2.1, hnd⟩)

/-- C2: on a cyclic request `topological_sort` raises no error and aborts
nothing: every task lying on a dependency cycle is silently left out of
the returned order, and the planning call proceeds with the partial
order.  (The claimed `CycleError` / `CycleDetected` abort does not exist
in the code.) -/
theorem C2_cycle_silent (r : PlanRequest) (t : String)
    (hnd : (taskIds r).Nodup) (hcyc : Relation.TransGen (edge r) t t) :
    t ∉ topological_sort r := by
  rw [kahn_eq_select r hnd]
  unfold topoSelectSpec
  obtain ⟨em2, heq, hchain, hnd2⟩ :=
    specLoop_emitted r (taskIds r).length [] trivial List.nodup_nil
  rw [heq]
  intro hmem
  exact chainOk_no_cycle r em2 hchain hnd2 t (List.mem_reverse.mp hmem) hcyc

/-- Witness for C2 on the concrete two-task cycle `T1 ↔ T2`. -/
theorem C2_witness : "T1" ∉ topological_sort rCycle :=
  C2_cycle_silent rCycle "T1" (by decide)
    (Relation.TransGen.head (show edge rCycle "T1" "T2" by unfold edge; decide)
      (Relation.TransGen.single (show edge rCycle "T2" "T1" by unfold edge; decide)))

/-- Counterexample to the claimed abort: on the cyclic request the sort
returns a normal (empty) list, leaving both tasks unvisited, instead of
failing. -/
theorem C2_counterexample :
    topological_sort rCycle = []
      ∧ (topological_sort rCycle).length < rCycle.tasks.length := by
  decide

/-- C6: the order is produced by Kahn with a priority-first tie break,
but ties among equal-priority ready nodes are broken by the
lexicographically least task id (the heap key is `(-priority, task_id)`),
not by insertion order: the sort equals the selection description
`topoSelectSpec`, whose pick is a ready id no other ready id beats on the
key `(-priority, id)`. -/
theorem C6_priority_tiebreak (r : PlanRequest) (hnd : (taskIds r).Nodup) :
    topological_sort r = topoSelectSpec r ∧
    ∀ emitted i, pickMin r (readyList r emitted) = some i →
      i ∈ readyList r emitted ∧
      ∀ j ∈ readyList r emitted, keyLtB (taskKey r j) (taskKey r i) = false := by
  refine ⟨kahn_eq_select r hnd, ?_⟩
  intro emitted i hp
  exact ⟨pickMin_mem r _ i hp, fun j hj => pickMin_not_lt r _ i hp j hj⟩

/-- Witness for C6 on the concrete tie request. -/
theorem C6_witness :
    (taskIds rTie).Nodup ∧ topological_sort rTie = topoSelectSpec rTie :=
  ⟨by decide, (C6_priority_tiebreak rTie (by decide)).1⟩

/-- Counterexample to the insertion-order tie break: with equal-priority
tasks inserted as `b` then `a`, the code emits `a` first while the claimed
insertion-order rule would emit `b` first. -/
theorem C6_counterexample :
    topological_sort rTie = ["a", "b"] ∧ topoInsertSpec rTie = ["b", "a"] := by
  decide

end Planner
